import Mathlib

/-!
Verification of the ChiMei health-insurance reconciliation pipeline
(`AssitantAPP/HistoryDataSearch.py` and `AssitantAPP/IndexSQL.py`).

Strings are modelled as Lean `String`/`List Char`.  The Python standard
library primitives used by `clean_str` (`unicodedata.normalize("NFKC", ·)`,
`str.strip`, `re.sub(r"\s+", " ", ·)`, `str.lower`) are modelled at the
character level by their action on the character classes the program's own
documentation names (full-width → half-width compatibility characters,
whitespace, ASCII case); on all other characters they act as the identity.
-/

namespace ChiMei

/-! ## Normalizer: `clean_str` from HistoryDataSearch.py -/

/-- Whitespace as recognised by Python's `str.strip` and the regex `\s`:
ASCII space, tab, LF, CR, VT, FF, plus the Unicode spaces NBSP (U+00A0) and
ideographic space (U+3000) that occur in this data set. -/
def isPySpace (c : Char) : Bool :=
  c.toNat = 32 || c.toNat = 9 || c.toNat = 10 || c.toNat = 13 ||
  c.toNat = 11 || c.toNat = 12 || c.toNat = 160 || c.toNat = 12288

/-- Model of `unicodedata.normalize("NFKC", ·)` at the character level:
full-width ASCII variants U+FF01–U+FF5E collapse to their half-width forms,
the compatibility spaces U+3000 and U+00A0 collapse to an ASCII space, and
every other character is left unchanged (the program uses NFKC precisely
for the full-width → half-width collapse, per its own docstring). -/
def nfkcChar (c : Char) : Char :=
  if 0xFF01 ≤ c.toNat ∧ c.toNat ≤ 0xFF5E then Char.ofNat (c.toNat - 0xFEE0)
  else if c.toNat = 0x3000 ∨ c.toNat = 0xA0 then Char.ofNat 32
  else c

/-- Model of `str.lower` at the character level (ASCII case). -/
def lowerChar (c : Char) : Char :=
  if 65 ≤ c.toNat ∧ c.toNat ≤ 90 then Char.ofNat (c.toNat + 32) else c

/-- Model of `str.strip` on the left: drop leading whitespace. -/
def stripLeft (l : List Char) : List Char := l.dropWhile isPySpace

/-- Model of `str.strip` on the right: drop trailing whitespace. -/
def stripRight (l : List Char) : List Char :=
  (l.reverse.dropWhile isPySpace).reverse

/-- Model of `str.strip`: drop leading and trailing whitespace. -/
def stripBoth (l : List Char) : List Char := stripRight (stripLeft l)

/-- Model of `re.sub(r"\s+", " ", ·)`: replace every maximal run of whitespace by a
single ASCII space (the space is emitted at the last character of a run,
which yields the same string as the regex substitution). -/
def collapseWs : List Char → List Char
  | [] => []
  | [c] => if isPySpace c then [' '] else [c]
  | c :: d :: cs =>
    if isPySpace c then
      if isPySpace d then collapseWs (d :: cs)
      else ' ' :: collapseWs (d :: cs)
    else c :: collapseWs (d :: cs)

/-- The string body of `clean_str`: NFKC, then strip, then whitespace
collapse, then lower-casing, in the order the source applies them. -/
def normChars (l : List Char) : List Char :=
  (collapseWs (stripBoth (l.map nfkcChar))).map lowerChar

/-- A Python value reaching `clean_str`: a string, a plain integer, the
float NaN, or None (`pd.isna` is true exactly on the last two). -/
inductive PyVal where
  | pstr (s : String)
  | pint (n : Int)
  | pnan
  | pnone
deriving DecidableEq

/-- Model of `pd.isna`: true on NaN and None, false on strings and numbers. -/
def pyIsNa : PyVal → Bool
  | .pnan => true
  | .pnone => true
  | _ => false

/-- Python `str(·)` on the values above. -/
def pyStr : PyVal → String
  | .pstr s => s
  | .pint n => toString n
  | .pnan => "nan"
  | .pnone => "None"

/-- The function `clean_str` from HistoryDataSearch.py: NaN-like values map to the empty
string, anything else is converted to its string form and normalized. -/
def clean_str (v : PyVal) : String :=
  if pyIsNa v then "" else String.mk (normChars (pyStr v).data)

/-- The normalizer `clean_str` restricted to strings, as used on the data-frame columns. -/
def cleanS (s : String) : String := clean_str (.pstr s)

/-! ### Character-level lemmas -/

theorem char_toNat_ofNat_small (n : Nat) (h1 : n < 55296) :
    (Char.ofNat n).toNat = n := by
  have hv : n.isValidChar := Or.inl h1
  simp [Char.ofNat, hv, Char.ofNatAux, Char.toNat, UInt32.toNat,
    BitVec.toNat_ofNatLt]

theorem nfkcChar_eq_self (c : Char)
    (h1 : ¬(0xFF01 ≤ c.toNat ∧ c.toNat ≤ 0xFF5E))
    (h2 : ¬(c.toNat = 0x3000 ∨ c.toNat = 0xA0)) : nfkcChar c = c := by
  unfold nfkcChar
  rw [if_neg h1, if_neg h2]

theorem lowerChar_eq_self (c : Char)
    (h : ¬(65 ≤ c.toNat ∧ c.toNat ≤ 90)) : lowerChar c = c := by
  unfold lowerChar
  rw [if_neg h]

theorem lowerChar_toNat_of (c : Char) (h : 65 ≤ c.toNat ∧ c.toNat ≤ 90) :
    (lowerChar c).toNat = c.toNat + 32 := by
  unfold lowerChar
  rw [if_pos h]
  exact char_toNat_ofNat_small _ (by omega)

theorem nfkcChar_idem (c : Char) : nfkcChar (nfkcChar c) = nfkcChar c := by
  by_cases h1 : 0xFF01 ≤ c.toNat ∧ c.toNat ≤ 0xFF5E
  · have e : nfkcChar c = Char.ofNat (c.toNat - 0xFEE0) := by
      unfold nfkcChar; rw [if_pos h1]
    have ht : (nfkcChar c).toNat = c.toNat - 0xFEE0 := by
      rw [e]; exact char_toNat_ofNat_small _ (by omega)
    exact nfkcChar_eq_self _ (by omega) (by omega)
  · by_cases h2 : c.toNat = 0x3000 ∨ c.toNat = 0xA0
    · have e : nfkcChar c = Char.ofNat 32 := by
        unfold nfkcChar; rw [if_neg h1, if_pos h2]
      have ht : (nfkcChar c).toNat = 32 := by
        rw [e]; exact char_toNat_ofNat_small _ (by omega)
      exact nfkcChar_eq_self _ (by omega) (by omega)
    · simp [nfkcChar_eq_self c h1 h2]

theorem lowerChar_idem (c : Char) : lowerChar (lowerChar c) = lowerChar c := by
  by_cases h1 : 65 ≤ c.toNat ∧ c.toNat ≤ 90
  · have ht := lowerChar_toNat_of c h1
    exact lowerChar_eq_self _ (by omega)
  · simp [lowerChar_eq_self c h1]

theorem nfkcChar_lowerChar (c : Char) (h : nfkcChar c = c) :
    nfkcChar (lowerChar c) = lowerChar c := by
  by_cases h1 : 65 ≤ c.toNat ∧ c.toNat ≤ 90
  · have ht := lowerChar_toNat_of c h1
    exact nfkcChar_eq_self _ (by omega) (by omega)
  · rw [lowerChar_eq_self c h1, h]

theorem isPySpace_eq_false_of (c : Char) (h1 : 33 ≤ c.toNat)
    (h2 : c.toNat ≤ 126) : isPySpace c = false := by
  simp only [isPySpace, Bool.or_eq_false_iff, decide_eq_false_iff_not]
  omega

theorem isPySpace_lowerChar (c : Char) :
    isPySpace (lowerChar c) = isPySpace c := by
  by_cases h1 : 65 ≤ c.toNat ∧ c.toNat ≤ 90
  · have ht := lowerChar_toNat_of c h1
    rw [isPySpace_eq_false_of _ (by omega) (by omega),
      isPySpace_eq_false_of _ (by omega) (by omega)]
  · rw [lowerChar_eq_self c h1]

theorem lowerChar_space : lowerChar ' ' = ' ' := by decide

theorem nfkcChar_space : nfkcChar ' ' = ' ' := by decide

/-! ### List-level whitespace lemmas -/

/-- The head (if any) is not whitespace. -/
def noLeadWs (l : List Char) : Bool := !(l.head?.elim false isPySpace)

/-- The last character (if any) is not whitespace. -/
def noTrailWs (l : List Char) : Bool := !(l.getLast?.elim false isPySpace)

theorem collapseWs_nil : collapseWs [] = [] := rfl

theorem collapseWs_one (c : Char) :
    collapseWs [c] = if isPySpace c then [' '] else [c] := rfl

theorem collapseWs_two (c d : Char) (cs : List Char) :
    collapseWs (c :: d :: cs) =
      if isPySpace c then
        if isPySpace d then collapseWs (d :: cs)
        else ' ' :: collapseWs (d :: cs)
      else c :: collapseWs (d :: cs) := rfl

theorem collapseWs_ne_nil (l : List Char) (h : l ≠ []) : collapseWs l ≠ [] := by
  induction l with
  | nil => exact absurd rfl h
  | cons c t ih =>
    cases t with
    | nil => rw [collapseWs_one]; split_ifs <;> simp
    | cons d cs =>
      rw [collapseWs_two]
      have hd := ih (by simp)
      split_ifs <;> simp_all

theorem collapseWs_eq_nil_iff (l : List Char) : collapseWs l = [] ↔ l = [] := by
  constructor
  · intro h
    by_contra hne
    exact collapseWs_ne_nil l hne h
  · intro h; subst h; rfl

theorem getLast?_cons_ne {α : Type} (c : α) (cs : List α) (h : cs ≠ []) :
    (c :: cs).getLast? = cs.getLast? := by
  cases cs with
  | nil => exact absurd rfl h
  | cons d ds => exact List.getLast?_cons_cons

theorem noLead_dropWhile (l : List Char) :
    noLeadWs (l.dropWhile isPySpace) = true := by
  induction l with
  | nil => rfl
  | cons c cs ih =>
    rw [List.dropWhile_cons]
    split_ifs with h
    · exact ih
    · simp [noLeadWs, Option.elim, h]

theorem dropWhile_eq_self_of_noLead (l : List Char) (h : noLeadWs l = true) :
    l.dropWhile isPySpace = l := by
  cases l with
  | nil => rfl
  | cons c cs =>
    simp only [noLeadWs, List.head?_cons, Option.elim, Bool.not_eq_true'] at h
    rw [List.dropWhile_cons, if_neg (by simp [h])]

theorem noLead_collapse (l : List Char) (h : noLeadWs l = true) :
    noLeadWs (collapseWs l) = true := by
  cases l with
  | nil => rfl
  | cons c t =>
    simp only [noLeadWs, List.head?_cons, Option.elim, Bool.not_eq_true'] at h
    cases t with
    | nil =>
      rw [collapseWs_one, if_neg (by simp [h])]
      simp [noLeadWs, Option.elim, h]
    | cons d cs =>
      rw [collapseWs_two, if_neg (by simp [h])]
      simp [noLeadWs, Option.elim, h]

theorem noTrail_suffix {l₁ l₂ : List Char} (hs : l₁ <:+ l₂)
    (h : noTrailWs l₂ = true) : noTrailWs l₁ = true := by
  obtain ⟨t, rfl⟩ := hs
  cases e : l₁.getLast? with
  | none => simp [noTrailWs, e]
  | some c =>
    have h2 : (t ++ l₁).getLast? = some c := by
      rw [List.getLast?_append, e]; rfl
    simp only [noTrailWs, h2, Option.elim, Bool.not_eq_true'] at h
    simp [noTrailWs, e, Option.elim, h]

theorem noTrail_collapse (l : List Char) :
    noTrailWs l = true → noTrailWs (collapseWs l) = true := by
  induction l with
  | nil => intro _; rfl
  | cons c t ih =>
    intro ht
    cases t with
    | nil =>
      rw [collapseWs_one]
      simp only [noTrailWs, List.getLast?_singleton, Option.elim,
        Bool.not_eq_true'] at ht
      rw [if_neg (by simp [ht])]
      simp [noTrailWs, Option.elim, ht]
    | cons d cs =>
      have htne : (d :: cs) ≠ [] := by simp
      have ht' : noTrailWs (d :: cs) = true := by
        rw [noTrailWs, ← getLast?_cons_ne c _ htne]; exact ht
      have hr := ih ht'
      have hrne : collapseWs (d :: cs) ≠ [] := collapseWs_ne_nil _ htne
      rw [collapseWs_two]
      split_ifs with h1 h2
      · exact hr
      · rw [noTrailWs, getLast?_cons_ne _ _ hrne]
        exact hr
      · rw [noTrailWs, getLast?_cons_ne _ _ hrne]
        exact hr

/-- The invariant the collapse step establishes: every whitespace character
is an ASCII space and no two adjacent characters are both whitespace. -/
def wellCollapsed : List Char → Bool
  | [] => true
  | [c] => !isPySpace c || c == ' '
  | c :: d :: cs =>
    (!isPySpace c || c == ' ') && !(isPySpace c && isPySpace d) &&
      wellCollapsed (d :: cs)

theorem collapseWs_head_of_not_space (d : Char) (cs : List Char)
    (h : isPySpace d = false) :
    ∃ r, collapseWs (d :: cs) = d :: r := by
  cases cs with
  | nil => exact ⟨[], by rw [collapseWs_one, if_neg (by simp [h])]⟩
  | cons e cs' =>
    exact ⟨collapseWs (e :: cs'), by rw [collapseWs_two, if_neg (by simp [h])]⟩

theorem wellCollapsed_cons (c : Char) (r : List Char)
    (hc : isPySpace c = false) (hr : wellCollapsed r = true) :
    wellCollapsed (c :: r) = true := by
  cases r with
  | nil => simp [wellCollapsed, hc]
  | cons e r' => simp [wellCollapsed, hc, hr]

theorem wellCollapsed_collapse (l : List Char) :
    wellCollapsed (collapseWs l) = true := by
  induction l with
  | nil => rfl
  | cons c t ih =>
    cases t with
    | nil =>
      rw [collapseWs_one]
      split_ifs with h
      · decide
      · simp [wellCollapsed, h]
    | cons d cs =>
      rw [collapseWs_two]
      split_ifs with h1 h2
      · exact ih
      · obtain ⟨r', hr'⟩ := collapseWs_head_of_not_space d cs (by simpa using h2)
        rw [hr'] at ih ⊢
        simp only [wellCollapsed, Bool.and_eq_true] at ih ⊢
        refine ⟨⟨by decide, ?_⟩, ih⟩
        simp [h2]
      · obtain ⟨r, hr⟩ : ∃ r, collapseWs (d :: cs) = r := ⟨_, rfl⟩
        rw [hr] at ih ⊢
        exact wellCollapsed_cons c r (by simpa using h1) ih

theorem collapse_eq_self_of_wellCollapsed (l : List Char)
    (h : wellCollapsed l = true) : collapseWs l = l := by
  induction l with
  | nil => rfl
  | cons c t ih =>
    cases t with
    | nil =>
      rw [collapseWs_one]
      simp only [wellCollapsed, Bool.or_eq_true, Bool.not_eq_true',
        beq_iff_eq] at h
      rcases h with h | h
      · rw [if_neg (by simp [h])]
      · subst h
        split_ifs <;> rfl
    | cons d cs =>
      simp only [wellCollapsed, Bool.and_eq_true, Bool.or_eq_true,
        Bool.not_eq_true', beq_iff_eq, Bool.and_eq_false_iff] at h
      obtain ⟨⟨hok, hpair⟩, hwc⟩ := h
      have hih := ih hwc
      rw [collapseWs_two]
      rcases hok with hok | hok
      · rw [if_neg (by simp [hok]), hih]
      · subst hok
        rcases hpair with hp | hp
        · simp [isPySpace] at hp
        · rw [if_pos (by decide), if_neg (by simp [hp]), hih]

theorem collapse_idem (l : List Char) :
    collapseWs (collapseWs l) = collapseWs l :=
  collapse_eq_self_of_wellCollapsed _ (wellCollapsed_collapse l)

theorem collapse_map_comm (f : Char → Char)
    (hf : ∀ c, isPySpace (f c) = isPySpace c) (hsp : f ' ' = ' ')
    (l : List Char) : collapseWs (l.map f) = (collapseWs l).map f := by
  induction l with
  | nil => rfl
  | cons c t ih =>
    cases t with
    | nil =>
      rw [List.map_cons, List.map_nil, collapseWs_one, collapseWs_one, hf]
      split_ifs
      · rw [List.map_cons, List.map_nil, hsp]
      · rw [List.map_cons, List.map_nil]
    | cons d cs =>
      have ihm : collapseWs (f d :: List.map f cs) =
          List.map f (collapseWs (d :: cs)) := by
        rw [← List.map_cons]; exact ih
      rw [List.map_cons, List.map_cons, collapseWs_two, collapseWs_two,
        hf, hf]
      split_ifs
      · exact ihm
      · rw [List.map_cons, hsp, ihm]
      · rw [List.map_cons, ihm]

theorem dropWhile_map_comm (f : Char → Char)
    (hf : ∀ c, isPySpace (f c) = isPySpace c) (l : List Char) :
    (l.map f).dropWhile isPySpace = (l.dropWhile isPySpace).map f := by
  rw [List.dropWhile_map]
  have hfe : (isPySpace ∘ f) = isPySpace := funext hf
  rw [hfe]

theorem mem_collapse {c : Char} {l : List Char} (h : c ∈ collapseWs l) :
    c = ' ' ∨ c ∈ l := by
  induction l generalizing c with
  | nil => simp [collapseWs_nil] at h
  | cons e t ih =>
    cases t with
    | nil =>
      rw [collapseWs_one] at h
      split_ifs at h with he
      · simp at h
        exact Or.inl h
      · simp at h
        exact Or.inr (by simp [h])
    | cons d cs =>
      rw [collapseWs_two] at h
      split_ifs at h with h1 h2
      · rcases ih h with h3 | h3
        · exact Or.inl h3
        · exact Or.inr (List.mem_cons.mpr (Or.inr h3))
      · rcases List.mem_cons.mp h with h3 | h3
        · exact Or.inl h3
        · rcases ih h3 with h4 | h4
          · exact Or.inl h4
          · exact Or.inr (List.mem_cons.mpr (Or.inr h4))
      · rcases List.mem_cons.mp h with h3 | h3
        · exact Or.inr (by simp [h3])
        · rcases ih h3 with h4 | h4
          · exact Or.inl h4
          · exact Or.inr (List.mem_cons.mpr (Or.inr h4))

/-! ### Strip lemmas -/

theorem noLead_stripLeft (l : List Char) : noLeadWs (stripLeft l) = true :=
  noLead_dropWhile l

theorem stripLeft_eq_self (l : List Char) (h : noLeadWs l = true) :
    stripLeft l = l :=
  dropWhile_eq_self_of_noLead l h

theorem noTrail_stripRight (l : List Char) : noTrailWs (stripRight l) = true := by
  unfold stripRight
  rw [noTrailWs, List.getLast?_reverse]
  exact noLead_dropWhile l.reverse

theorem stripRight_eq_self (l : List Char) (h : noTrailWs l = true) :
    stripRight l = l := by
  unfold stripRight
  have hl : noLeadWs l.reverse = true := by
    rw [noLeadWs, List.head?_reverse]; exact h
  rw [dropWhile_eq_self_of_noLead _ hl, List.reverse_reverse]

theorem stripRight_pfx (l : List Char) : stripRight l <+: l := by
  rw [← List.reverse_suffix]
  unfold stripRight
  rw [List.reverse_reverse]
  exact List.dropWhile_suffix _

theorem noLead_stripRight (l : List Char) (h : noLeadWs l = true) :
    noLeadWs (stripRight l) = true := by
  obtain ⟨t, ht⟩ := stripRight_pfx l
  cases e : (stripRight l).head? with
  | none => simp [noLeadWs, e]
  | some c =>
    cases hsr : stripRight l with
    | nil => rw [hsr] at e; simp at e
    | cons d ds =>
      rw [hsr] at e
      simp only [List.head?_cons, Option.some.injEq] at e
      subst e
      rw [hsr] at ht
      rw [← ht] at h
      simp only [noLeadWs, List.cons_append, List.head?_cons, Option.elim,
        Bool.not_eq_true'] at h
      simp [noLeadWs, hsr, Option.elim, h]

theorem noLead_stripBoth (l : List Char) : noLeadWs (stripBoth l) = true :=
  noLead_stripRight _ (noLead_stripLeft l)

theorem noTrail_stripBoth (l : List Char) : noTrailWs (stripBoth l) = true :=
  noTrail_stripRight _

theorem stripBoth_eq_self (l : List Char) (h1 : noLeadWs l = true)
    (h2 : noTrailWs l = true) : stripBoth l = l := by
  unfold stripBoth
  rw [stripLeft_eq_self l h1, stripRight_eq_self l h2]

theorem stripLeft_map_comm (f : Char → Char)
    (hf : ∀ c, isPySpace (f c) = isPySpace c) (l : List Char) :
    stripLeft (l.map f) = (stripLeft l).map f :=
  dropWhile_map_comm f hf l

theorem stripRight_map_comm (f : Char → Char)
    (hf : ∀ c, isPySpace (f c) = isPySpace c) (l : List Char) :
    stripRight (l.map f) = (stripRight l).map f := by
  unfold stripRight
  rw [← List.map_reverse, dropWhile_map_comm f hf, List.map_reverse]

theorem stripBoth_map_comm (f : Char → Char)
    (hf : ∀ c, isPySpace (f c) = isPySpace c) (l : List Char) :
    stripBoth (l.map f) = (stripBoth l).map f := by
  unfold stripBoth
  rw [stripLeft_map_comm f hf, stripRight_map_comm f hf]

theorem map_id_of_mem {α : Type} (f : α → α) (l : List α)
    (h : ∀ c ∈ l, f c = c) : l.map f = l := by
  induction l with
  | nil => rfl
  | cons c cs ih =>
    rw [List.map_cons, h c (List.mem_cons_self c cs),
      ih (fun d hd => h d (List.mem_cons.mpr (Or.inr hd)))]

/-! ### Idempotence of the normalizer -/

theorem nfkc_fixed_normChars (l : List Char) :
    ∀ c ∈ normChars l, nfkcChar c = c := by
  intro c hc
  unfold normChars at hc
  obtain ⟨d, hd, rfl⟩ := List.mem_map.mp hc
  have hdfix : nfkcChar d = d := by
    rcases mem_collapse hd with h1 | h1
    · rw [h1]; exact nfkcChar_space
    · have h2 : d ∈ stripLeft (l.map nfkcChar) :=
        List.Sublist.mem h1 (stripRight_pfx _).sublist
      have h3 : d ∈ l.map nfkcChar :=
        List.Sublist.mem h2 (List.dropWhile_sublist _)
      obtain ⟨a, _, rfl⟩ := List.mem_map.mp h3
      exact nfkcChar_idem a
  exact nfkcChar_lowerChar d hdfix

theorem normChars_idem (l : List Char) : normChars (normChars l) = normChars l := by
  set f := collapseWs (stripBoth (l.map nfkcChar)) with hf
  have hy : normChars l = f.map lowerChar := rfl
  have hnl : noLeadWs f = true := noLead_collapse _ (noLead_stripBoth _)
  have hnt : noTrailWs f = true := noTrail_collapse _ (noTrail_stripBoth _)
  have hnl' : noLeadWs (normChars l) = true := by
    rw [hy, noLeadWs, List.head?_map]
    cases e : f.head? with
    | none => rfl
    | some c =>
      rw [noLeadWs, e] at hnl
      simp only [Option.map_some', Option.elim] at *
      rw [← isPySpace_lowerChar c] at hnl
      exact hnl
  have hnt' : noTrailWs (normChars l) = true := by
    rw [hy, noTrailWs, List.getLast?_map]
    cases e : f.getLast? with
    | none => rfl
    | some c =>
      rw [noTrailWs, e] at hnt
      simp only [Option.map_some', Option.elim] at *
      rw [← isPySpace_lowerChar c] at hnt
      exact hnt
  calc normChars (normChars l)
      = (collapseWs (stripBoth ((normChars l).map nfkcChar))).map lowerChar := rfl
    _ = (collapseWs (stripBoth (normChars l))).map lowerChar := by
        rw [map_id_of_mem nfkcChar _ (nfkc_fixed_normChars l)]
    _ = (collapseWs (normChars l)).map lowerChar := by
        rw [stripBoth_eq_self _ hnl' hnt']
    _ = ((collapseWs f).map lowerChar).map lowerChar := by
        rw [hy, collapse_map_comm lowerChar isPySpace_lowerChar lowerChar_space]
    _ = (f.map lowerChar).map lowerChar := by rw [collapse_idem]
    _ = f.map lowerChar := by
        rw [List.map_map]
        exact List.map_congr_left (fun c _ => lowerChar_idem c)

/-! ## Product search: IndexSQL.py

A row of the SQLite `products` table (columns 功能類別(前5碼), 名稱,
大小類, 類別, loaded from `IndexCode.csv`). -/

structure SqlRecord where
  funcCode : String
  prodName : String
  sizeClass : String
  typeClass : String
deriving DecidableEq

/-- SQLite `LIKE` matching with its default collation: `%` matches any
sequence of characters, `_` matches exactly one character, every other
pattern character matches case-insensitively on ASCII. -/
def likeMatch : List Char → List Char → Bool
  | [], t => t.isEmpty
  | p :: ps, t =>
    if p = '%' then t.tails.any (fun s => likeMatch ps s)
    else
      match t with
      | [] => false
      | c :: ts =>
        (if p = '_' then true else lowerChar p == lowerChar c) && likeMatch ps ts

/-- The pattern `f"%{keyword}%"` built by `fuzzy_search_product`. -/
def likePat (k : String) : List Char := '%' :: (k.data ++ ['%'])

/-- The `WHERE 名稱 LIKE ? OR 大小類 LIKE ? OR 類別 LIKE ?` test of the
exact stage, applied to one row. -/
def recordLikeMatch (k : String) (r : SqlRecord) : Bool :=
  likeMatch (likePat k) r.prodName.data ||
    likeMatch (likePat k) r.sizeClass.data ||
    likeMatch (likePat k) r.typeClass.data

/-- The exact stage of `fuzzy_search_product`: all rows whose product name,
size class or type class matches `%keyword%`, as (名稱, 功能類別) pairs in
table order. -/
def directMatches (db : List SqlRecord) (k : String) : List (String × String) :=
  (db.filter (recordLikeMatch k)).map (fun r => (r.prodName, r.funcCode))

/-- All product names paired with their `token_set_ratio`-style score
against the keyword (the scorer itself is library code, passed in as a
parameter; scores range over naturals). -/
def scoredNames (scorer : String → String → Nat) (k : String)
    (names : List String) : List (String × Nat) :=
  names.map (fun n => (n, scorer k n))

/-- Comparison used to model `heapq.nlargest` inside `process.extract`:
higher score first, ties broken by the original candidate position. -/
def rankLe (a b : Nat × (String × Nat)) : Bool :=
  b.2.2 < a.2.2 || (a.2.2 == b.2.2 && a.1 ≤ b.1)

/-- Model of `process.extract(keyword, names, scorer, limit=30)`: the 30 highest
scoring candidates in descending score order, ties in original order
(`heapq.nlargest` is documented as stable descending selection). -/
def extractTop30 (l : List (String × Nat)) : List (String × Nat) :=
  ((l.enum.mergeSort rankLe).take 30).map (fun p => p.2)

/-- One step of the fuzzy stage's loop body: keep a scored candidate only
when its score reaches the threshold, and resolve it to the first table row
carrying its name (the `SELECT ... WHERE 名稱 = ?` + `fetchone()` lookup,
which compares names exactly); a name absent from the table is skipped. -/
def resolveCandidate (db : List SqlRecord) (threshold : Nat)
    (p : String × Nat) : Option (String × String) :=
  if threshold ≤ p.2 then
    (db.find? (fun r => r.prodName == p.1)).map (fun r => (p.1, r.funcCode))
  else none

/-- The fuzzy stage of `fuzzy_search_product`: rank all names, keep those
scoring at least the threshold, and resolve each surviving name. -/
def fuzzyStage (scorer : String → String → Nat) (db : List SqlRecord)
    (k : String) (threshold : Nat) : List (String × String) :=
  let names := db.map (fun r => r.prodName)
  let ranked := extractTop30 (scoredNames scorer k names)
  ranked.filterMap (resolveCandidate db threshold)

/-- The function `fuzzy_search_product(conn, keyword, threshold)`: return the exact-stage
matches when there are any, otherwise fall back to the fuzzy stage (the
Python default threshold is 40; callers here pass it explicitly). -/
def fuzzy_search_product (scorer : String → String → Nat)
    (db : List SqlRecord) (k : String) (threshold : Nat) :
    List (String × String) :=
  let direct := directMatches db k
  if direct.isEmpty then fuzzyStage scorer db k threshold else direct

/-- Case-insensitive (ASCII) prefix test, the collation `LIKE` uses on
literal pattern characters. -/
def foldPrefix : List Char → List Char → Bool
  | [], _ => true
  | _ :: _, [] => false
  | p :: ps, c :: cs => lowerChar p == lowerChar c && foldPrefix ps cs

/-- Substring containment under the `LIKE` collation (ASCII
case-insensitive): some suffix of `t` starts with `k`. -/
def containsCI (k t : List Char) : Bool := t.tails.any (foldPrefix k)

/-- A keyword free of the `LIKE` metacharacters `%` and `_`. -/
def noMeta (k : List Char) : Bool := k.all (fun c => !(c = '%') && !(c = '_'))

/-- Substring containment applied to the three searched fields of a row. -/
def recordContainsCI (k : String) (r : SqlRecord) : Bool :=
  containsCI k.data r.prodName.data || containsCI k.data r.sizeClass.data ||
    containsCI k.data r.typeClass.data

/-- A row of the intermediate `IndexSQL_find.csv` table: the four product
columns plus 搜尋關鍵字 and 參考產品. -/
structure ExpandedRow where
  funcCode : String
  prodName : String
  sizeClass : String
  typeClass : String
  searchKeyword : String
  refProduct : String
deriving DecidableEq

/-- The function `query_products_by_function`: all rows sharing the given 功能類別
code, compared exactly, in table order. -/
def query_products_by_function (db : List SqlRecord) (refCode : String) :
    List SqlRecord :=
  db.filter (fun r => r.funcCode == refCode)

/-- The function `search_products`: resolve the keyword, and when at least one product
matched, expand every match to its whole functional class and return the
concatenated table (which the script then writes to `IndexSQL_find.csv`).
When no product matches, the function returns early and produces no table
at all (`none`). -/
def search_products (scorer : String → String → Nat)
    (db : List SqlRecord) (keyword : String) : Option (List ExpandedRow) :=
  let matched := fuzzy_search_product scorer db keyword 40
  if matched.isEmpty then none
  else some (matched.flatMap (fun p =>
    (query_products_by_function db p.2).map (fun r =>
      ⟨r.funcCode, r.prodName, r.sizeClass, r.typeClass, keyword, p.1⟩)))

/-! ### `LIKE` matching lemmas -/

theorem likeMatch_nil (t : List Char) : likeMatch [] t = t.isEmpty := by
  simp [likeMatch]

theorem likeMatch_pct (ps t : List Char) :
    likeMatch ('%' :: ps) t = t.tails.any (fun s => likeMatch ps s) := by
  rw [likeMatch.eq_def]
  simp

theorem likeMatch_lit_nil (p : Char) (ps : List Char) (h : p ≠ '%') :
    likeMatch (p :: ps) [] = false := by
  rw [likeMatch]
  simp [h]

theorem likeMatch_lit_cons (p : Char) (ps : List Char) (c : Char)
    (ts : List Char) (h : p ≠ '%') :
    likeMatch (p :: ps) (c :: ts) =
      ((if p = '_' then true else lowerChar p == lowerChar c) &&
        likeMatch ps ts) := by
  rw [likeMatch]
  simp [h]

theorem likeMatch_pct_iff (ps t : List Char) :
    likeMatch ('%' :: ps) t = true ↔ ∃ s, s <:+ t ∧ likeMatch ps s = true := by
  rw [likeMatch_pct, List.any_eq_true]
  constructor
  · rintro ⟨s, hs, h⟩
    exact ⟨s, (List.mem_tails s t).mp hs, h⟩
  · rintro ⟨s, hs, h⟩
    exact ⟨s, (List.mem_tails s t).mpr hs, h⟩

theorem likeMatch_pct_of (ps t : List Char) (h : likeMatch ps t = true) :
    likeMatch ('%' :: ps) t = true :=
  (likeMatch_pct_iff ps t).mpr ⟨t, List.suffix_refl t, h⟩

theorem likeMatch_single_pct (t : List Char) : likeMatch ['%'] t = true :=
  (likeMatch_pct_iff [] t).mpr
    ⟨[], List.nil_suffix, by rw [likeMatch_nil]; rfl⟩

theorem likeMatch_append_pct (k : List Char) (hk : noMeta k = true) :
    ∀ t, likeMatch (k ++ ['%']) t = foldPrefix k t := by
  induction k with
  | nil =>
    intro t
    rw [List.nil_append, likeMatch_single_pct t]
    rfl
  | cons p ps ih =>
    intro t
    simp only [noMeta, List.all_cons, Bool.and_eq_true,
      Bool.not_eq_true', decide_eq_false_iff_not] at hk
    obtain ⟨⟨hp1, hp2⟩, hps⟩ := hk
    have hih := ih (by simpa [noMeta] using hps)
    cases t with
    | nil =>
      rw [List.cons_append, likeMatch_lit_nil _ _ hp1]
      rfl
    | cons c ts =>
      rw [List.cons_append, likeMatch_lit_cons _ _ _ _ hp1, if_neg hp2, hih]
      rfl

theorem foldPrefix_exists_split (k s : List Char) (h : foldPrefix k s = true) :
    ∃ k' z, s = k' ++ z ∧ k.map lowerChar = k'.map lowerChar := by
  induction k generalizing s with
  | nil => exact ⟨[], s, rfl, rfl⟩
  | cons p ps ih =>
    cases s with
    | nil => simp [foldPrefix] at h
    | cons c cs =>
      simp only [foldPrefix, Bool.and_eq_true, beq_iff_eq] at h
      obtain ⟨k', z, rfl, hmap⟩ := ih cs h.2
      exact ⟨c :: k', z, rfl, by simp [h.1, hmap]⟩

theorem likeMatch_append_pct_of_foldEq (k : List Char) :
    ∀ k' z, k.map lowerChar = k'.map lowerChar →
      likeMatch (k ++ ['%']) (k' ++ z) = true := by
  induction k with
  | nil =>
    intro k' z hmap
    have hk0 : k' = [] := by
      have := congrArg List.length hmap
      simpa using this.symm
    subst hk0
    exact likeMatch_single_pct z
  | cons p ps ih =>
    intro k' z hmap
    cases k' with
    | nil => simp at hmap
    | cons c cs =>
      simp only [List.map_cons, List.cons.injEq] at hmap
      obtain ⟨hpc, hrest⟩ := hmap
      by_cases hp : p = '%'
      · subst hp
        rw [List.cons_append]
        refine (likeMatch_pct_iff _ _).mpr ⟨cs ++ z, ?_, ih cs z hrest⟩
        rw [List.cons_append]
        exact (List.suffix_refl _).trans (List.suffix_cons c (cs ++ z))
      · rw [List.cons_append, List.cons_append,
          likeMatch_lit_cons _ _ _ _ hp, ih cs z hrest]
        by_cases hu : p = '_'
        · rw [if_pos hu]; rfl
        · rw [if_neg hu]
          simp [hpc]

theorem likeMatch_of_containsCI (k t : List Char)
    (h : containsCI k t = true) : likeMatch ('%' :: (k ++ ['%'])) t = true := by
  unfold containsCI at h
  obtain ⟨s, hs, hfold⟩ := List.any_eq_true.mp h
  have hsuf : s <:+ t := (List.mem_tails s t).mp hs
  obtain ⟨k', z, rfl, hmap⟩ := foldPrefix_exists_split k s hfold
  exact (likeMatch_pct_iff _ _).mpr
    ⟨k' ++ z, hsuf, likeMatch_append_pct_of_foldEq k k' z hmap⟩

theorem likeMatch_likePat_noMeta (k t : String) (hk : noMeta k.data = true) :
    likeMatch (likePat k) t.data = containsCI k.data t.data := by
  rw [Bool.eq_iff_iff]
  constructor
  · intro h
    rw [likePat] at h
    obtain ⟨s, hs, h2⟩ := (likeMatch_pct_iff _ _).mp h
    rw [likeMatch_append_pct k.data hk s] at h2
    exact List.any_eq_true.mpr ⟨s, (List.mem_tails s t.data).mpr hs, h2⟩
  · intro h
    exact likeMatch_of_containsCI k.data t.data h

/-! ### Ranking lemmas for the fuzzy stage -/

theorem rankLe_trans (a b c : Nat × (String × Nat)) (h1 : rankLe a b = true)
    (h2 : rankLe b c = true) : rankLe a c = true := by
  simp only [rankLe, Bool.or_eq_true, Bool.and_eq_true, decide_eq_true_eq,
    beq_iff_eq] at h1 h2 ⊢
  omega

theorem rankLe_total (a b : Nat × (String × Nat)) :
    (rankLe a b || rankLe b a) = true := by
  simp only [rankLe, Bool.or_eq_true, Bool.and_eq_true, decide_eq_true_eq,
    beq_iff_eq]
  omega

theorem mem_extractTop30 (l : List (String × Nat)) (a : String × Nat)
    (ha : a ∈ extractTop30 l) : a ∈ l := by
  unfold extractTop30 at ha
  obtain ⟨ia, hia, rfl⟩ := List.mem_map.mp ha
  have h1 : ia ∈ l.enum.mergeSort rankLe :=
    List.Sublist.mem hia (List.take_sublist _ _)
  have h2 : ia ∈ l.enum := (List.mergeSort_perm l.enum rankLe).mem_iff.mp h1
  obtain ⟨i, x⟩ := ia
  have h3 := List.mem_enum h2
  exact h3.2 ▸ List.getElem_mem h3.1

theorem scoredNames_snd (scorer : String → String → Nat) (k : String)
    (names : List String) (a : String × Nat)
    (ha : a ∈ scoredNames scorer k names) : a.2 = scorer k a.1 := by
  obtain ⟨n, _, rfl⟩ := List.mem_map.mp ha
  rfl

theorem resolveCandidate_some (db : List SqlRecord) (th : Nat)
    (p : String × Nat) (q : String × String)
    (h : resolveCandidate db th p = some q) : th ≤ p.2 ∧ q.1 = p.1 := by
  unfold resolveCandidate at h
  split_ifs at h with hth
  obtain ⟨r, _, rfl⟩ := Option.map_eq_some'.mp h
  exact ⟨hth, rfl⟩

theorem sorted_enum_strict (l : List (String × Nat)) :
    (l.enum.mergeSort rankLe).Pairwise
      (fun a b => b.2.2 < a.2.2 ∨ (a.2.2 = b.2.2 ∧ a.1 < b.1)) := by
  have hp : (l.enum.mergeSort rankLe).Pairwise
      (fun a b => rankLe a b = true) :=
    List.sorted_mergeSort rankLe_trans rankLe_total l.enum
  have hnd : (l.enum.mergeSort rankLe).Pairwise (fun a b => a.1 ≠ b.1) := by
    have h1 : ((l.enum.mergeSort rankLe).map Prod.fst).Perm
        (l.enum.map Prod.fst) :=
      (List.mergeSort_perm l.enum rankLe).map Prod.fst
    have h2 : (l.enum.map Prod.fst).Nodup := by
      rw [List.enum_map_fst]
      exact List.nodup_range _
    have h3 : ((l.enum.mergeSort rankLe).map Prod.fst).Nodup :=
      h1.symm.nodup h2
    exact (List.pairwise_map).mp h3
  refine (hp.and hnd).imp ?_
  rintro a b ⟨hab, hne⟩
  simp only [rankLe, Bool.or_eq_true, Bool.and_eq_true, decide_eq_true_eq,
    beq_iff_eq] at hab
  rcases hab with h | ⟨he, hle⟩
  · exact Or.inl h
  · exact Or.inr ⟨he, lt_of_le_of_ne hle hne⟩

/-- An empty classification table yields no matches from either stage. -/
theorem fuzzy_empty_db (scorer : String → String → Nat) (k : String)
    (th : Nat) : fuzzy_search_product scorer [] k th = [] := by
  simp [fuzzy_search_product, directMatches, fuzzyStage, extractTop30,
    scoredNames]

/-! ## Claim theorems for the search component -/

/-- C2: whenever some record contains the keyword as a substring (under the
text store's collation), the exact stage is non-empty, `search` returns
exactly the exact-stage matches as (matched_name, category_code) pairs, and
the fuzzy stage contributes nothing; the fuzzy stage runs only when the
exact stage yields zero matches. -/
theorem claim_C2_exact_stage_precedence (scorer : String → String → Nat)
    (db : List SqlRecord) (k : String) (threshold : Nat) :
    ((∃ r ∈ db, recordContainsCI k r = true) →
      fuzzy_search_product scorer db k threshold = directMatches db k ∧
        directMatches db k ≠ []) ∧
    (directMatches db k = [] →
      fuzzy_search_product scorer db k threshold =
        fuzzyStage scorer db k threshold) := by
  constructor
  · rintro ⟨r, hr, hc⟩
    have hlike : recordLikeMatch k r = true := by
      simp only [recordContainsCI, Bool.or_eq_true] at hc
      simp only [recordLikeMatch, likePat, Bool.or_eq_true]
      rcases hc with (h | h) | h
      · exact Or.inl (Or.inl (likeMatch_of_containsCI _ _ h))
      · exact Or.inl (Or.inr (likeMatch_of_containsCI _ _ h))
      · exact Or.inr (likeMatch_of_containsCI _ _ h)
    have hne : directMatches db k ≠ [] := by
      have hmem : (r.prodName, r.funcCode) ∈ directMatches db k :=
        List.mem_map_of_mem _ (List.mem_filter.mpr ⟨hr, hlike⟩)
      exact List.ne_nil_of_mem hmem
    refine ⟨?_, hne⟩
    unfold fuzzy_search_product
    rw [if_neg (by simpa [List.isEmpty_iff] using hne)]
  · intro h
    unfold fuzzy_search_product
    rw [h]
    rfl

/-- Witness for C2 at a concrete table and keyword. -/
def rec1 : SqlRecord :=
  { funcCode := "A1234", prodName := "widget pro", sizeClass := "large",
    typeClass := "typeA" }

theorem claim_C2_witness :
    fuzzy_search_product (fun _ _ => 0) [rec1] "widget" 40 =
      directMatches [rec1] "widget" ∧ directMatches [rec1] "widget" ≠ [] :=
  (claim_C2_exact_stage_precedence (fun _ _ => 0) [rec1] "widget" 40).1
    ⟨rec1, by decide, by decide⟩

/-- C6: with zero exact-stage matches, the fuzzy stage considers at most 30
candidates, returns nothing scoring below the threshold, and returns its
results in descending score order; the order is the unique ranking by
descending score with ties broken by original candidate position (the
`ranked` list below, characterised by its permutation and strict
lexicographic pairwise properties). -/
theorem claim_C6_fuzzy_bounds (scorer : String → String → Nat)
    (db : List SqlRecord) (k : String) (threshold : Nat)
    (h : directMatches db k = []) :
    (fuzzy_search_product scorer db k threshold).length ≤ 30 ∧
    (∀ p ∈ fuzzy_search_product scorer db k threshold,
      threshold ≤ scorer k p.1) ∧
    (fuzzy_search_product scorer db k threshold).Pairwise
      (fun p q => scorer k q.1 ≤ scorer k p.1) ∧
    ∃ ranked : List (Nat × (String × Nat)),
      ranked.Perm (scoredNames scorer k (db.map (fun r => r.prodName))).enum ∧
      ranked.Pairwise
        (fun a b => b.2.2 < a.2.2 ∨ (a.2.2 = b.2.2 ∧ a.1 < b.1)) ∧
      fuzzy_search_product scorer db k threshold =
        ((ranked.take 30).map (fun p => p.2)).filterMap
          (resolveCandidate db threshold) := by
  have heq : fuzzy_search_product scorer db k threshold =
      (extractTop30 (scoredNames scorer k (db.map (fun r => r.prodName)))).filterMap
        (resolveCandidate db threshold) := by
    unfold fuzzy_search_product
    rw [h]
    rfl
  refine ⟨?_, ?_, ?_, ?_⟩
  · rw [heq]
    refine le_trans (List.length_filterMap_le _ _) ?_
    unfold extractTop30
    rw [List.length_map, List.length_take]
    exact min_le_left _ _
  · intro p hp
    rw [heq] at hp
    obtain ⟨a, ha, hres⟩ := List.mem_filterMap.mp hp
    obtain ⟨hth, hfst⟩ := resolveCandidate_some _ _ _ _ hres
    have ha2 := mem_extractTop30 _ _ ha
    have hsnd := scoredNames_snd _ _ _ _ ha2
    rw [hfst, ← hsnd]
    exact hth
  · rw [heq]
    have hstrict := sorted_enum_strict
      (scoredNames scorer k (db.map (fun r => r.prodName)))
    have h30 : ((scoredNames scorer k
          (db.map (fun r => r.prodName))).enum.mergeSort rankLe).take 30
        |>.Pairwise (fun a b => b.2.2 < a.2.2 ∨ (a.2.2 = b.2.2 ∧ a.1 < b.1)) :=
      List.Pairwise.sublist (List.take_sublist _ _) hstrict
    have hmap : (extractTop30 (scoredNames scorer k
        (db.map (fun r => r.prodName)))).Pairwise
        (fun x y => y.2 ≤ x.2) := by
      unfold extractTop30
      rw [List.pairwise_map]
      refine h30.imp ?_
      rintro a b (hlt | ⟨he, _⟩)
      · exact Nat.le_of_lt hlt
      · exact Nat.le_of_eq he.symm
    have hscores : (extractTop30 (scoredNames scorer k
        (db.map (fun r => r.prodName)))).Pairwise
        (fun x y => scorer k y.1 ≤ scorer k x.1) := by
      refine hmap.imp_of_mem ?_
      intro a b hma hmb hle
      rw [← scoredNames_snd _ _ _ _ (mem_extractTop30 _ _ hma),
        ← scoredNames_snd _ _ _ _ (mem_extractTop30 _ _ hmb)]
      exact hle
    rw [List.pairwise_filterMap]
    refine hscores.imp ?_
    intro a b hab q hq q' hq'
    obtain ⟨_, hq1⟩ := resolveCandidate_some _ _ _ _ hq
    obtain ⟨_, hq1'⟩ := resolveCandidate_some _ _ _ _ hq'
    rw [hq1, hq1']
    exact hab
  · refine ⟨(scoredNames scorer k
      (db.map (fun r => r.prodName))).enum.mergeSort rankLe,
      List.mergeSort_perm _ _, sorted_enum_strict _, ?_⟩
    rw [heq]
    rfl

theorem claim_C6_witness :
    (fuzzy_search_product (fun _ _ => 50) [rec1] "zzzz" 40).length ≤ 30 :=
  (claim_C6_fuzzy_bounds (fun _ _ => 50) [rec1] "zzzz" 40 (by decide)).1

/-- C10: in the exact stage, the keyword is embedded in a `LIKE` pattern,
so `%` and `_` act as wildcards: the keyword `"%"` matches every record;
for keywords free of metacharacters the `LIKE` test coincides with
substring containment under the collation; and a metacharacter keyword can
match a text that does not contain it as a substring. -/
theorem claim_C10_like_wildcards :
    (∀ db : List SqlRecord,
      directMatches db "%" = db.map (fun r => (r.prodName, r.funcCode))) ∧
    (∀ k t : String, noMeta k.data = true →
      likeMatch (likePat k) t.data = containsCI k.data t.data) ∧
    likeMatch (likePat "a%b") "axxb".data = true ∧
    containsCI "a%b".data "axxb".data = false := by
  refine ⟨?_, likeMatch_likePat_noMeta, by decide, by decide⟩
  intro db
  unfold directMatches
  have hall : db.filter (recordLikeMatch "%") = db := by
    rw [List.filter_eq_self]
    intro r _
    have h3 : likeMatch (likePat "%") r.prodName.data = true := by
      show likeMatch ['%', '%', '%'] _ = true
      exact likeMatch_pct_of _ _ (likeMatch_pct_of _ _ (likeMatch_single_pct _))
    simp [recordLikeMatch, h3]
  rw [hall]

theorem claim_C10_witness :
    noMeta "ab".data = true ∧
    likeMatch (likePat "ab") "xaby".data = containsCI "ab".data "xaby".data :=
  ⟨by decide, claim_C10_like_wildcards.2.1 "ab" "xaby" (by decide)⟩

/-- C7 counterexample: with no matched products, `search_products` returns
early with no table at all; it does not return an empty expanded table. -/
theorem claim_C7_counterexample :
    search_products (fun _ _ => 0) [] "x" = none ∧
    ¬ search_products (fun _ _ => 0) [] "x" = some [] := by
  have h := fuzzy_empty_db (fun _ _ => 0) "x" 40
  refine ⟨?_, ?_⟩ <;> simp [search_products, h]

/-- C7 (amended): when the matched-product list is empty, the expansion
operation signals no error but returns early without producing any
intermediate table (so no empty table reaches the downstream reconciler). -/
theorem claim_C7_amended (scorer : String → String → Nat)
    (db : List SqlRecord) (k : String)
    (h : fuzzy_search_product scorer db k 40 = []) :
    search_products scorer db k = none := by
  simp [search_products, h]

theorem claim_C7_witness : search_products (fun _ _ => 0) [] "y" = none :=
  claim_C7_amended (fun _ _ => 0) [] "y" (fuzzy_empty_db _ _ _)

/-! ## The reconciliation pipeline: `HistoryDataSearch`

Data frames are modelled as a list of column names plus rows, each row an
association list from column names to cell values.  Cells are carried as
strings; the 0/1 integer flag column is carried as its decimal numeral. -/

abbrev Row := List (String × String)

/-- A pandas data frame, as read from one of the three CSV files. -/
structure DF where
  cols : List String
  rows : List Row
deriving DecidableEq

/-- Cell lookup by column name (first matching entry). -/
def getVal (r : Row) (c : String) : String :=
  match r.find? (fun p => p.1 == c) with
  | some p => p.2
  | none => ""

/-- Column assignment `df[c] = ...` at the row level: any existing entry
for `c` is replaced, the new cell is appended. -/
def setVal (r : Row) (c v : String) : Row :=
  (r.filter (fun p => !(p.1 == c))) ++ [(c, v)]

/-- Column assignment `df[c] = df[src].apply(f)`: add (or overwrite) a column. -/
def addCol (df : DF) (c : String) (f : Row → String) : DF :=
  { cols := if c ∈ df.cols then df.cols else df.cols ++ [c],
    rows := df.rows.map (fun r => setVal r c (f r)) }

/-- Column projection `df[[cs]]`. -/
def selectCols (df : DF) (cs : List String) : DF :=
  { cols := cs,
    rows := df.rows.map (fun r => cs.map (fun c => (c, getVal r c))) }

/-- Model of `df.drop(columns=cs)` (columns absent from the frame are ignored). -/
def dropColumns (df : DF) (cs : List String) : DF :=
  { cols := df.cols.filter (fun c => !(cs.contains c)),
    rows := df.rows.map (fun r => r.filter (fun p => !(cs.contains p.1))) }

/-- Model of `pd.merge(left, right, left_on, right_on, how="inner")`: for each left
row in order, one output row per matching right row, in right-table
order. -/
def innerMerge (left right : DF) (leftOn rightOn : String) : DF :=
  { cols := left.cols ++ right.cols,
    rows := left.rows.flatMap (fun l =>
      (right.rows.filter (fun r => getVal l leftOn == getVal r rightOn)).map
        (fun r => l ++ r)) }

/-- Model of `left.merge(right, ..., how="left", indicator=True)`: every left row
is kept; a match appends the right row and tags `_merge = "both"`,
otherwise the row is tagged `_merge = "left_only"`. -/
def leftMergeInd (left right : DF) (leftOn rightOn : String) : DF :=
  { cols := left.cols ++ right.cols ++ ["_merge"],
    rows := left.rows.flatMap (fun l =>
      let ms := right.rows.filter
        (fun r => getVal l leftOn == getVal r rightOn)
      if ms.isEmpty then [l ++ [("_merge", "left_only")]]
      else ms.map (fun r => l ++ r ++ [("_merge", "both")])) }

/-- Model of `drop_duplicates()` keeping first occurrences (helper with the set of
already seen elements). -/
def dedupFirstAux {α : Type} [DecidableEq α] : List α → List α → List α
  | _, [] => []
  | seen, x :: xs =>
    if x ∈ seen then dedupFirstAux seen xs
    else x :: dedupFirstAux (x :: seen) xs

/-- Model of `drop_duplicates()` keeping first occurrences. -/
def dedupFirst {α : Type} [DecidableEq α] (l : List α) : List α :=
  dedupFirstAux [] l

/-- Required columns of the three inputs (step 3 of the source). -/
def requiredFormatCols : List String := ["核價類別"]

def requiredIndexCols : List String := ["名稱", "功能類別(前5碼)"]

def requiredPriceCols : List String := ["特材代碼前五碼", "核價類別名稱"]

/-- Columns from `req` missing from the frame. -/
def missingCols (df : DF) (req : List String) : List String :=
  req.filter (fun c => !(df.cols.contains c))

/-- The validation loop: the first frame with missing required columns, in
the order df_format, df_index, df_price. -/
def firstMissing (dfF dfI dfP : DF) : Option (String × List String) :=
  if missingCols dfF requiredFormatCols ≠ [] then
    some ("df_format", missingCols dfF requiredFormatCols)
  else if missingCols dfI requiredIndexCols ≠ [] then
    some ("df_index", missingCols dfI requiredIndexCols)
  else if missingCols dfP requiredPriceCols ≠ [] then
    some ("df_price", missingCols dfP requiredPriceCols)
  else none

/-- Rendering of the offending column list inside the ValueError
message. -/
def renderList : List String → String
  | [] => ""
  | [c] => c
  | c :: cs => c ++ ", " ++ renderList cs

/-- The `ValueError` message `f"{df_name} 缺少欄位: {missing}"`. -/
def valueErrorMsg (nm : String) (ms : List String) : String :=
  nm ++ " 缺少欄位: " ++ renderList ms

/-- Step 4: add 核價類別_clean to the format table. -/
def prepFormat (df : DF) : DF :=
  addCol df "核價類別_clean" (fun r => cleanS (getVal r "核價類別"))

/-- Step 4: add 名稱_clean to the index table. -/
def prepIndex (df : DF) : DF :=
  addCol df "名稱_clean" (fun r => cleanS (getVal r "名稱"))

/-- Step 4: add 核價類別名稱_clean to the price table. -/
def prepPrice (df : DF) : DF :=
  addCol df "核價類別名稱_clean" (fun r => cleanS (getVal r "核價類別名稱"))

/-- Step 5: inner merge of the price table with the projected index table
on the raw five-character code. -/
def stage1 (dfI dfP : DF) : DF :=
  innerMerge (prepPrice dfP)
    (selectCols (prepIndex dfI) ["功能類別(前5碼)", "名稱_clean"])
    "特材代碼前五碼" "功能類別(前5碼)"

/-- Step 6: `df_format[['核價類別_clean']].drop_duplicates()`. -/
def validTable (dfF : DF) : DF :=
  { cols := ["核價類別_clean"],
    rows := dedupFirst (selectCols (prepFormat dfF) ["核價類別_clean"]).rows }

/-- Step 7: left merge with indicator on the normalized category name. -/
def stage2 (dfF dfI dfP : DF) : DF :=
  leftMergeInd (stage1 dfI dfP) (validTable dfF)
    "核價類別名稱_clean" "核價類別_clean"

/-- Step 8: `result["點數變更記錄"] = (result["_merge"] == "both").astype(int)`. -/
def withFlag (df : DF) : DF :=
  addCol df "點數變更記錄"
    (fun r => if getVal r "_merge" == "both" then "1" else "0")

/-- Step 9a: drop the helper columns. -/
def dropHelperCols (df : DF) : DF :=
  dropColumns df ["名稱_clean", "核價類別_clean", "_merge"]

/-- The fixed output schema of step 9b. -/
def outputColumns : List String :=
  ["年份", "特材代碼", "特材代碼前五碼", "核價類別名稱", "中英文品名",
   "產品型號/規格", "單位", "支付點數", "申請者簡稱", "許可證字號",
   "中文品名", "英文品名", "點數變更記錄"]

/-- Step 9b: project onto the output schema, silently skipping absent
columns. -/
def projectOutput (df : DF) : DF :=
  selectCols df (outputColumns.filter (fun c => df.cols.contains c))

/-- The reconciled table produced on the success path. -/
def reconTable (dfF dfI dfP : DF) : DF :=
  projectOutput (dropHelperCols (withFlag (stage2 dfF dfI dfP)))

/-- The sum `result['點數變更記錄'].sum()` (the flag column holds "0"/"1"). -/
def flagSum (df : DF) : Nat :=
  (df.rows.map (fun r => if getVal r "點數變更記錄" == "1" then 1 else 0)).sum

/-- The success message of step 10. -/
def summaryMsg (df : DF) (outputFile : String) : String :=
  "處理完成，共 " ++ toString df.rows.length ++ " 筆資料；點數變更記錄=1：" ++
    toString (flagSum df) ++ " 筆\n已輸出 → " ++ outputFile

/-- The exception classes distinguished by the `except` clauses. -/
inductive PyErr where
  | fileNotFound (msg : String)
  | valueError (msg : String)
  | other (msg : String)
deriving DecidableEq

/-- Model of `pd.read_csv`, with a missing file raising `FileNotFoundError`. -/
def readCsv (f : Option DF) (path : String) : Except PyErr DF :=
  match f with
  | none => .error (.fileNotFound path)
  | some df => .ok df

/-- The body of the `try:` block of `HistoryDataSearch`: read the three
files, validate the required columns, then run the two join stages, the
flag derivation and the output projection. -/
def historyBody (fFormat fIndex fPrice : Option DF) (outputFile : String) :
    Except PyErr (DF × String) := do
  let dfF ← readCsv fFormat "format_clean.csv"
  let dfI ← readCsv fIndex "IndexSQL_find.csv"
  let dfP ← readCsv fPrice "價量調查品項108-112_FINAL.csv"
  match firstMissing dfF dfI dfP with
  | some nm_ms => .error (.valueError (valueErrorMsg nm_ms.1 nm_ms.2))
  | none =>
    let result := reconTable dfF dfI dfP
    .ok (result, summaryMsg result outputFile)

/-- The `except` clauses: each error class is converted into a
`(None, message)` pair with its distinctive prefix; the success value is
passed through. -/
def wrapResult (e : Except PyErr (DF × String)) : Option DF × String :=
  match e with
  | .ok dfmsg => (some dfmsg.1, dfmsg.2)
  | .error (.fileNotFound m) => (none, "檔案不存在：" ++ m)
  | .error (.valueError m) => (none, "資料欄位錯誤：" ++ m)
  | .error (.other m) => (none, "未預期錯誤：" ++ m)

/-- The function `HistoryDataSearch`, with the file reads modelled by optional input
tables. -/
def HistoryDataSearch (fFormat fIndex fPrice : Option DF)
    (outputFile : String) : Option DF × String :=
  wrapResult (historyBody fFormat fIndex fPrice outputFile)

/-! ### Association-row and deduplication lemmas -/

theorem mem_dedupFirstAux {α : Type} [DecidableEq α] (seen l : List α)
    (a : α) : a ∈ dedupFirstAux seen l ↔ a ∈ l ∧ a ∉ seen := by
  induction l generalizing seen with
  | nil => simp [dedupFirstAux]
  | cons x xs ih =>
    unfold dedupFirstAux
    split_ifs with hx
    · rw [ih]
      constructor
      · rintro ⟨h1, h2⟩
        exact ⟨List.mem_cons.mpr (Or.inr h1), h2⟩
      · rintro ⟨h1, h2⟩
        rcases List.mem_cons.mp h1 with h3 | h3
        · subst h3; exact absurd hx h2
        · exact ⟨h3, h2⟩
    · rw [List.mem_cons, ih]
      constructor
      · rintro (h1 | ⟨h1, h2⟩)
        · subst h1; exact ⟨List.mem_cons_self _ _, hx⟩
        · refine ⟨List.mem_cons.mpr (Or.inr h1), fun hc => h2 ?_⟩
          exact List.mem_cons.mpr (Or.inr hc)
      · rintro ⟨h1, h2⟩
        by_cases hax : a = x
        · exact Or.inl hax
        · have h3 : a ∈ xs := by
            rcases List.mem_cons.mp h1 with h4 | h4
            · exact absurd h4 hax
            · exact h4
          refine Or.inr ⟨h3, fun hc => ?_⟩
          rcases List.mem_cons.mp hc with h4 | h4
          · exact hax h4
          · exact h2 h4

theorem nodup_dedupFirstAux {α : Type} [DecidableEq α] (seen l : List α) :
    (dedupFirstAux seen l).Nodup := by
  induction l generalizing seen with
  | nil => exact List.nodup_nil
  | cons x xs ih =>
    unfold dedupFirstAux
    split_ifs with hx
    · exact ih seen
    · refine List.nodup_cons.mpr ⟨?_, ih (x :: seen)⟩
      intro hc
      exact ((mem_dedupFirstAux _ _ _).mp hc).2 (List.mem_cons_self _ _)

theorem mem_dedupFirst {α : Type} [DecidableEq α] (l : List α) (a : α) :
    a ∈ dedupFirst l ↔ a ∈ l := by
  unfold dedupFirst
  rw [mem_dedupFirstAux]
  simp

theorem nodup_dedupFirst {α : Type} [DecidableEq α] (l : List α) :
    (dedupFirst l).Nodup :=
  nodup_dedupFirstAux [] l

theorem getVal_setVal_self (r : Row) (c v : String) :
    getVal (setVal r c v) c = v := by
  unfold getVal setVal
  rw [List.find?_append]
  have h1 : (r.filter (fun p => !(p.1 == c))).find? (fun p => p.1 == c)
      = none := by
    rw [List.find?_eq_none]
    intro p hp
    have := (List.mem_filter.mp hp).2
    simp only [Bool.not_eq_true'] at this
    simp [this]
  rw [h1]
  simp [List.find?]

theorem getVal_setVal_ne (r : Row) (c v c' : String) (h : c' ≠ c) :
    getVal (setVal r c v) c' = getVal r c' := by
  unfold setVal
  induction r with
  | nil =>
    show getVal [(c, v)] c' = getVal [] c'
    unfold getVal
    have h2 : (c == c') = false := by simp [Ne.symm h]
    simp [List.find?, h2]
  | cons p r' ih =>
    by_cases hp : p.1 = c
    · have hfilter : ((p :: r').filter (fun q => !(q.1 == c))) =
          r'.filter (fun q => !(q.1 == c)) := by
        rw [List.filter_cons]
        simp [hp]
      rw [hfilter]
      rw [ih]
      unfold getVal
      rw [List.find?]
      have : (p.1 == c') = false := by
        simp [hp, Ne.symm h]
      rw [this]
    · have hfilter : ((p :: r').filter (fun q => !(q.1 == c))) =
          p :: r'.filter (fun q => !(q.1 == c)) := by
        rw [List.filter_cons]
        simp [hp]
      rw [hfilter]
      unfold getVal
      rw [List.cons_append, List.find?, List.find?]
      by_cases hpc : p.1 = c'
      · simp [hpc]
      · have h2 : (p.1 == c') = false := by simp [hpc]
        rw [h2]
        exact ih

theorem getVal_append_right_keyfree (a b : Row) (c : String)
    (hb : ∀ pr ∈ b, pr.1 ≠ c) : getVal (a ++ b) c = getVal a c := by
  unfold getVal
  rw [List.find?_append]
  have h1 : b.find? (fun p => p.1 == c) = none := by
    rw [List.find?_eq_none]
    intro p hp
    simp [hb p hp]
  rw [h1]
  cases a.find? (fun p => p.1 == c) <;> rfl

theorem getVal_append_left_keyfree (a b : Row) (c : String)
    (ha : ∀ pr ∈ a, pr.1 ≠ c) : getVal (a ++ b) c = getVal b c := by
  unfold getVal
  rw [List.find?_append]
  have h1 : a.find? (fun p => p.1 == c) = none := by
    rw [List.find?_eq_none]
    intro p hp
    simp [ha p hp]
  rw [h1]
  rfl

theorem getVal_filter_keep (r : Row) (q : String × String → Bool)
    (c : String) (hq : ∀ pr : String × String, pr.1 = c → q pr = true) :
    getVal (r.filter q) c = getVal r c := by
  induction r with
  | nil => rfl
  | cons p r' ih =>
    rw [List.filter_cons]
    by_cases hpc : p.1 = c
    · rw [if_pos (hq p hpc)]
      unfold getVal
      rw [List.find?, List.find?]
      simp [hpc]
    · have h2 : (p.1 == c) = false := by simp [hpc]
      split_ifs with hqp
      · unfold getVal
        rw [List.find?, List.find?, h2]
        exact ih
      · rw [ih]
        unfold getVal
        rw [List.find?, h2]

theorem getVal_projRow (cs : List String) (r : Row) (c : String) :
    getVal (cs.map (fun c' => (c', getVal r c'))) c =
      if cs.contains c then getVal r c else "" := by
  induction cs with
  | nil => rfl
  | cons c' cs' ih =>
    rw [List.map_cons]
    unfold getVal
    rw [List.find?]
    by_cases hc : c' = c
    · subst hc
      simp [List.contains_cons]
    · have h2 : (c' == c) = false := by simp [hc]
      simp only [h2]
      rw [List.contains_cons]
      have h3 : (c == c') = false := by simp [Ne.symm hc]
      rw [h3]
      simp only [Bool.false_or]
      exact ih

theorem filter_length_le_one_of_nodup_map {α β : Type} [BEq β]
    [LawfulBEq β] (f : α → β) (l : List α) (hn : (l.map f).Nodup)
    (key : β) : (l.filter (fun a => key == f a)).length ≤ 1 := by
  induction l with
  | nil => simp
  | cons x xs ih =>
    rw [List.map_cons, List.nodup_cons] at hn
    rw [List.filter_cons]
    split_ifs with hx
    · have hempty : xs.filter (fun a => key == f a) = [] := by
        rw [List.filter_eq_nil_iff]
        intro y hy hky
        apply hn.1
        have h1 : key = f x := by simpa using hx
        have h2 : key = f y := by simpa using hky
        rw [h1] at h2
        exact h2 ▸ List.mem_map_of_mem f hy
      rw [List.length_cons, hempty]
      simp
    · exact le_trans (ih hn.2) (by omega)

theorem flatMap_length_le {α β : Type} (L : List α) (f : α → List β)
    (h : ∀ l ∈ L, (f l).length ≤ 1) :
    (L.flatMap f).length ≤ L.length := by
  induction L with
  | nil => simp
  | cons x xs ih =>
    rw [List.flatMap_cons, List.length_append, List.length_cons]
    have h1 := h x (List.mem_cons_self _ _)
    have h2 := ih (fun l hl => h l (List.mem_cons.mpr (Or.inr hl)))
    omega

theorem flatMap_length_eq {α β : Type} (L : List α) (f : α → List β)
    (h : ∀ l ∈ L, (f l).length = 1) :
    (L.flatMap f).length = L.length := by
  induction L with
  | nil => simp
  | cons x xs ih =>
    rw [List.flatMap_cons, List.length_append, List.length_cons]
    have h1 := h x (List.mem_cons_self _ _)
    have h2 := ih (fun l hl => h l (List.mem_cons.mpr (Or.inr hl)))
    omega

/-! ### Valid-category table lemmas -/

theorem getVal_singleton (c v : String) : getVal [(c, v)] c = v := by
  unfold getVal
  simp [List.find?]

theorem validTable_rows_shape (dfF : DF) (vr : Row)
    (h : vr ∈ (validTable dfF).rows) :
    ∃ v, vr = [("核價類別_clean", v)] := by
  unfold validTable at h
  simp only at h
  rw [mem_dedupFirst] at h
  obtain ⟨r, _, rfl⟩ := List.mem_map.mp h
  exact ⟨getVal r "核價類別_clean", rfl⟩

/-- The deduplicated set of normalized valid-category names. -/
def validSet (dfF : DF) : List String :=
  (validTable dfF).rows.map (fun r => getVal r "核價類別_clean")

theorem validSet_nodup (dfF : DF) : (validSet dfF).Nodup := by
  unfold validSet
  refine List.Nodup.map_on ?_ (nodup_dedupFirst _)
  intro a ha b hb hab
  obtain ⟨va, rfl⟩ := validTable_rows_shape dfF a ha
  obtain ⟨vb, rfl⟩ := validTable_rows_shape dfF b hb
  rw [getVal_singleton, getVal_singleton] at hab
  rw [hab]

theorem validSet_mem (dfF : DF) (x : String) :
    x ∈ validSet dfF ↔
      x ∈ dfF.rows.map (fun fr => cleanS (getVal fr "核價類別")) := by
  unfold validSet validTable
  constructor
  · intro h
    obtain ⟨vr, hvr, rfl⟩ := List.mem_map.mp h
    simp only at hvr
    rw [mem_dedupFirst] at hvr
    obtain ⟨r, hr, rfl⟩ := List.mem_map.mp hvr
    obtain ⟨fr, hfr, rfl⟩ := List.mem_map.mp hr
    refine List.mem_map.mpr ⟨fr, hfr, ?_⟩
    show cleanS (getVal fr "核價類別") =
      getVal [("核價類別_clean",
        getVal (setVal fr "核價類別_clean" (cleanS (getVal fr "核價類別")))
          "核價類別_clean")] "核價類別_clean"
    rw [getVal_singleton, getVal_setVal_self]
  · intro h
    obtain ⟨fr, hfr, rfl⟩ := List.mem_map.mp h
    refine List.mem_map.mpr ⟨[("核價類別_clean",
      cleanS (getVal fr "核價類別"))], ?_, getVal_singleton _ _⟩
    simp only
    rw [mem_dedupFirst]
    refine List.mem_map.mpr ⟨setVal fr "核價類別_clean"
      (cleanS (getVal fr "核價類別")), List.mem_map_of_mem _ hfr, ?_⟩
    simp only [List.map_cons, List.map_nil]
    rw [getVal_setVal_self]

theorem validTable_filter_len (dfF : DF) (key : String) :
    ((validTable dfF).rows.filter
      (fun vr => key == getVal vr "核價類別_clean")).length ≤ 1 := by
  have hn : ((validTable dfF).rows.map
      (fun vr => getVal vr "核價類別_clean")).Nodup := validSet_nodup dfF
  exact filter_length_le_one_of_nodup_map _ _ hn key

theorem validTable_filter_ne_nil_iff (dfF : DF) (key : String) :
    ((validTable dfF).rows.filter
      (fun vr => key == getVal vr "核價類別_clean")) ≠ [] ↔
      key ∈ validSet dfF := by
  rw [Ne, List.filter_eq_nil_iff]
  push_neg
  constructor
  · rintro ⟨vr, hvr, hkey⟩
    refine List.mem_map.mpr ⟨vr, hvr, ?_⟩
    exact (beq_iff_eq.mp hkey).symm
  · intro h
    obtain ⟨vr, hvr, hkey⟩ := List.mem_map.mp h
    exact ⟨vr, hvr, by simp [hkey]⟩

/-! ## Claim theorems for the reconciler -/

/-- C9: the stage-2 left join neither drops nor duplicates rows — because
the valid-category table is deduplicated on the normalized key, its rows
are unique on that key, each stage-1 row matches at most one of them, and
the left join keeps unmatched rows, so the joined table has exactly as
many rows as the stage-1 result. -/
theorem claim_C9_stage2_row_count (dfF dfI dfP : DF) :
    (stage2 dfF dfI dfP).rows.length = (stage1 dfI dfP).rows.length := by
  unfold stage2 leftMergeInd
  simp only
  apply flatMap_length_eq
  intro l _
  have hlen := validTable_filter_len dfF (getVal l "核價類別名稱_clean")
  by_cases he : ((validTable dfF).rows.filter
      (fun r => getVal l "核價類別名稱_clean" ==
        getVal r "核價類別_clean")).isEmpty
  · rw [if_pos he]
    rfl
  · rw [if_neg he]
    rw [List.length_map]
    have h1 : ((validTable dfF).rows.filter
        (fun r => getVal l "核價類別名稱_clean" ==
          getVal r "核價類別_clean")) ≠ [] := by
      simpa [List.isEmpty_iff] using he
    have h2 := List.length_pos.mpr h1
    omega

/-- C3 counterexample: a duplicated classification code in the expanded
(index) table makes the stage-1 inner join produce more rows than the
price table has. -/
def dfP1 : DF :=
  { cols := ["特材代碼前五碼", "核價類別名稱"],
    rows := [[("特材代碼前五碼", "a"), ("核價類別名稱", "x")]] }

def dfI2 : DF :=
  { cols := ["名稱", "功能類別(前5碼)"],
    rows := [[("名稱", "n1"), ("功能類別(前5碼)", "a")],
             [("名稱", "n2"), ("功能類別(前5碼)", "a")]] }

theorem claim_C3_counterexample :
    ¬ ((stage1 dfI2 dfP1).rows.length ≤ dfP1.rows.length) := by decide

/-- C3 (amended): the stage-1 inner join has at most `len(price_table)`
rows provided each classification code occurs at most once in the expanded
table; with duplicated codes the join duplicates the matching price rows
(see the counterexample), so the bound does not hold unconditionally. -/
theorem claim_C3_stage1_bound (dfI dfP : DF)
    (h : ((prepIndex dfI).rows.map
      (fun r => getVal r "功能類別(前5碼)")).Nodup) :
    (stage1 dfI dfP).rows.length ≤ dfP.rows.length := by
  unfold stage1 innerMerge
  simp only
  have hlen : (prepPrice dfP).rows.length = dfP.rows.length := by
    unfold prepPrice addCol
    simp
  rw [← hlen]
  apply flatMap_length_le
  intro l _
  rw [List.length_map]
  unfold selectCols
  simp only
  rw [List.filter_map, List.length_map]
  have heq : ((fun r => getVal l "特材代碼前五碼" ==
        getVal r "功能類別(前5碼)") ∘
      (fun r => ["功能類別(前5碼)", "名稱_clean"].map
        (fun c => (c, getVal r c)))) =
      (fun r => getVal l "特材代碼前五碼" == getVal r "功能類別(前5碼)") := by
    funext r
    simp only [Function.comp]
    rw [getVal_projRow]
    simp
  rw [heq]
  exact filter_length_le_one_of_nodup_map _ _ h _

def dfI1w : DF :=
  { cols := ["名稱", "功能類別(前5碼)"],
    rows := [[("名稱", "n1"), ("功能類別(前5碼)", "a")],
             [("名稱", "n2"), ("功能類別(前5碼)", "b")]] }

theorem claim_C3_witness :
    (stage1 dfI1w dfP1).rows.length ≤ dfP1.rows.length :=
  claim_C3_stage1_bound dfI1w dfP1 (by decide)

/-! ### Error-contract lemmas (C4) -/

theorem string_data_append (a b : String) :
    (a ++ b).data = a.data ++ b.data := rfl

theorem renderList_cons_cons (c r : String) (rs : List String) :
    renderList (c :: r :: rs) = c ++ ", " ++ renderList (r :: rs) := rfl

theorem renderList_mem_split (c : String) (ms : List String) (h : c ∈ ms) :
    ∃ pre post, (renderList ms).data = pre ++ c.data ++ post := by
  induction ms with
  | nil => simp at h
  | cons m rest ih =>
    rcases List.mem_cons.mp h with h1 | h1
    · subst h1
      cases rest with
      | nil => exact ⟨[], [], by simp [renderList]⟩
      | cons r rs =>
        refine ⟨[], (", " ++ renderList (r :: rs)).data, ?_⟩
        rw [renderList_cons_cons, string_data_append, string_data_append,
          string_data_append, List.nil_append, List.append_assoc]
    · cases rest with
      | nil => simp at h1
      | cons r rs =>
        obtain ⟨pre, post, hpre⟩ := ih h1
        refine ⟨(m ++ ", ").data ++ pre, post, ?_⟩
        rw [renderList_cons_cons, string_data_append, hpre]
        simp [List.append_assoc]

theorem valueErrorMsg_names (nm : String) (ms : List String) (c : String)
    (h : c ∈ ms) :
    ∃ pre post, (valueErrorMsg nm ms).data = pre ++ c.data ++ post := by
  obtain ⟨pre, post, hp⟩ := renderList_mem_split c ms h
  refine ⟨(nm ++ " 缺少欄位: ").data ++ pre, post, ?_⟩
  unfold valueErrorMsg
  rw [string_data_append, string_data_append, hp]
  simp [List.append_assoc]

theorem firstMissing_some_ne_nil (dfF dfI dfP : DF) (nm : String)
    (ms : List String) (h : firstMissing dfF dfI dfP = some (nm, ms)) :
    ms ≠ [] := by
  unfold firstMissing at h
  split_ifs at h with h1 h2 h3 <;> simp_all

/-- C4: the reconciler's boundary never lets an exception escape — the
result is always a `(table?, message)` pair, and the failure classes map
to their distinctive messages: any missing input file yields `(None, ...)`
with the file-missing prefix; a required-column failure yields `(None, ...)`
with the missing-columns prefix and a message naming every missing column;
the catch-all `except` clause converts any other exception into the generic
wrapped message; and with all files present and all columns in place the
call returns the reconciled table with a summary message. -/
theorem claim_C4_error_contract (fF fI fP : Option DF) (out : String) :
    ((fF = none ∨ fI = none ∨ fP = none) →
      ∃ e, HistoryDataSearch fF fI fP out = (none, "檔案不存在：" ++ e)) ∧
    (∀ dfF dfI dfP nm ms, fF = some dfF → fI = some dfI → fP = some dfP →
      firstMissing dfF dfI dfP = some (nm, ms) →
      HistoryDataSearch fF fI fP out =
        (none, "資料欄位錯誤：" ++ valueErrorMsg nm ms) ∧
      ms ≠ [] ∧
      ∀ c ∈ ms, ∃ pre post,
        (valueErrorMsg nm ms).data = pre ++ c.data ++ post) ∧
    (∀ dfF dfI dfP, fF = some dfF → fI = some dfI → fP = some dfP →
      firstMissing dfF dfI dfP = none →
      HistoryDataSearch fF fI fP out =
        (some (reconTable dfF dfI dfP),
          summaryMsg (reconTable dfF dfI dfP) out)) ∧
    (∀ m, wrapResult (.error (.other m)) =
      ((none : Option DF), "未預期錯誤：" ++ m)) := by
  refine ⟨?_, ?_, ?_, fun m => rfl⟩
  · intro h
    rcases h with h | h | h
    · subst h
      exact ⟨"format_clean.csv", rfl⟩
    · subst h
      cases fF with
      | none => exact ⟨"format_clean.csv", rfl⟩
      | some dfF => exact ⟨"IndexSQL_find.csv", rfl⟩
    · subst h
      cases fF with
      | none => exact ⟨"format_clean.csv", rfl⟩
      | some dfF =>
        cases fI with
        | none => exact ⟨"IndexSQL_find.csv", rfl⟩
        | some dfI => exact ⟨"價量調查品項108-112_FINAL.csv", rfl⟩
  · intro dfF dfI dfP nm ms h1 h2 h3 hm
    subst h1; subst h2; subst h3
    refine ⟨?_, firstMissing_some_ne_nil _ _ _ _ _ hm,
      fun c hc => valueErrorMsg_names nm ms c hc⟩
    unfold HistoryDataSearch historyBody
    simp [readCsv, hm, wrapResult, Bind.bind, Except.bind]
  · intro dfF dfI dfP h1 h2 h3 hm
    subst h1; subst h2; subst h3
    unfold HistoryDataSearch historyBody
    simp [readCsv, hm, wrapResult, Bind.bind, Except.bind]

/-- Example tables exercising the C4 contract at concrete inputs. -/
def dfFormatEx : DF :=
  { cols := ["核價類別"], rows := [[("核價類別", "人工髖關節")]] }

def dfIndexEx : DF :=
  { cols := ["名稱", "功能類別(前5碼)"],
    rows := [[("名稱", "人工髖關節"), ("功能類別(前5碼)", "FB001")]] }

def dfPriceEx : DF :=
  { cols := ["特材代碼前五碼", "核價類別名稱"],
    rows := [[("特材代碼前五碼", "FB001"), ("核價類別名稱", "人工髖關節")]] }

def dfBadEx : DF := { cols := ["x"], rows := [] }

theorem claim_C4_witness :
    (∃ e, HistoryDataSearch none (some dfIndexEx) (some dfPriceEx) "out.csv" =
      (none, "檔案不存在：" ++ e)) ∧
    (HistoryDataSearch (some dfBadEx) (some dfIndexEx) (some dfPriceEx)
        "out.csv" =
      (none, "資料欄位錯誤：" ++ valueErrorMsg "df_format" ["核價類別"])) ∧
    (HistoryDataSearch (some dfFormatEx) (some dfIndexEx) (some dfPriceEx)
        "out.csv" =
      (some (reconTable dfFormatEx dfIndexEx dfPriceEx),
        summaryMsg (reconTable dfFormatEx dfIndexEx dfPriceEx) "out.csv")) ∧
    wrapResult (.error (.other "boom")) =
      ((none : Option DF), "未預期錯誤：" ++ "boom") := by
  refine ⟨?_, ?_, ?_, ?_⟩
  · exact (claim_C4_error_contract none (some dfIndexEx) (some dfPriceEx)
      "out.csv").1 (Or.inl rfl)
  · exact ((claim_C4_error_contract (some dfBadEx) (some dfIndexEx)
      (some dfPriceEx) "out.csv").2.1 dfBadEx dfIndexEx dfPriceEx
      "df_format" ["核價類別"] rfl rfl rfl (by decide)).1
  · exact (claim_C4_error_contract (some dfFormatEx) (some dfIndexEx)
      (some dfPriceEx) "out.csv").2.2.1 dfFormatEx dfIndexEx dfPriceEx
      rfl rfl rfl (by decide)
  · exact (claim_C4_error_contract none none none "x").2.2.2 "boom"

/-! ### Per-row lemmas for the change-flag claim (C1) -/

theorem sum_flatMap_nat {α β : Type} (L : List α) (f : α → List β)
    (g : β → Nat) :
    ((L.flatMap f).map g).sum = (L.map (fun l => ((f l).map g).sum)).sum := by
  induction L with
  | nil => rfl
  | cons x xs ih =>
    simp [List.flatMap_cons, List.map_append, List.sum_append, ih]

theorem sum_ite_eq_countP {α : Type} (L : List α) (p : α → Bool) :
    (L.map (fun l => if p l then 1 else 0)).sum = L.countP p := by
  induction L with
  | nil => rfl
  | cons x xs ih =>
    rw [List.map_cons, List.sum_cons, List.countP_cons, ih]
    by_cases h : p x
    · simp only [h, if_true]
      omega
    · simp only [h, if_false]
      omega

theorem length_le_one_ne_nil {α : Type} (l : List α) (h1 : l.length ≤ 1)
    (h2 : l ≠ []) : ∃ a, l = [a] := by
  cases l with
  | nil => exact absurd rfl h2
  | cons x xs =>
    cases xs with
    | nil => exact ⟨x, rfl⟩
    | cons y ys => simp at h1

theorem mem_addCol_cols (df : DF) (c c' : String) (f : Row → String)
    (h : c' ∈ df.cols) : c' ∈ (addCol df c f).cols := by
  unfold addCol
  split_ifs with hc
  · exact h
  · exact List.mem_append.mpr (Or.inl h)

theorem mem_addCol_cols_self (df : DF) (c : String) (f : Row → String) :
    c ∈ (addCol df c f).cols := by
  unfold addCol
  split_ifs with hc
  · exact hc
  · exact List.mem_append.mpr (Or.inr (by simp))

/-- A stage-1 row carries the normalized category of its own category
field, and (given merge-free price rows) contains no `_merge` key. -/
theorem stage1_row_props (dfI dfP : DF)
    (hmerge : ∀ r ∈ dfP.rows, ∀ pr ∈ r, pr.1 ≠ "_merge")
    (l : Row) (hl : l ∈ (stage1 dfI dfP).rows) :
    getVal l "核價類別名稱_clean" = cleanS (getVal l "核價類別名稱") ∧
    (∀ pr ∈ l, pr.1 ≠ "_merge") := by
  unfold stage1 innerMerge at hl
  simp only at hl
  obtain ⟨lp, hlp, hin⟩ := List.mem_flatMap.mp hl
  obtain ⟨rr, hrr, rfl⟩ := List.mem_map.mp hin
  have hrr2 := (List.mem_filter.mp hrr).1
  unfold prepPrice addCol at hlp
  simp only at hlp
  obtain ⟨p, hp, rfl⟩ := List.mem_map.mp hlp
  unfold selectCols at hrr2
  simp only at hrr2
  obtain ⟨ri, _, rfl⟩ := List.mem_map.mp hrr2
  simp only [List.map_cons, List.map_nil]
  have hrrkeys : ∀ pr ∈ [("功能類別(前5碼)", getVal ri "功能類別(前5碼)"),
      ("名稱_clean", getVal ri "名稱_clean")],
      pr.1 = "功能類別(前5碼)" ∨ pr.1 = "名稱_clean" := by
    intro pr hpr
    rcases List.mem_cons.mp hpr with h1 | h1
    · subst h1; exact Or.inl rfl
    · rcases List.mem_cons.mp h1 with h2 | h2
      · subst h2; exact Or.inr rfl
      · simp at h2
  constructor
  · rw [getVal_append_right_keyfree _ _ _ (by
      intro pr hpr
      rcases hrrkeys pr hpr with h1 | h1 <;> rw [h1] <;> decide)]
    rw [getVal_append_right_keyfree _ _ _ (by
      intro pr hpr
      rcases hrrkeys pr hpr with h1 | h1 <;> rw [h1] <;> decide)]
    rw [getVal_setVal_self, getVal_setVal_ne _ _ _ _ (by decide)]
  · intro pr hpr
    rcases List.mem_append.mp hpr with h1 | h1
    · unfold setVal at h1
      rcases List.mem_append.mp h1 with h2 | h2
      · exact hmerge p hp pr (List.mem_filter.mp h2).1
      · have : pr = ("核價類別名稱_clean",
            cleanS (getVal p "核價類別名稱")) := by simpa using h2
        rw [this]
        exact (by decide : ("核價類別名稱_clean" : String) ≠ "_merge")
    · rcases hrrkeys pr h1 with h2 | h2 <;> rw [h2] <;> decide

/-- The row transformation of the stage-2 left join, for a single stage-1
row: the list of joined output rows it produces. -/
def stage2Branch (dfF : DF) (l : Row) : List Row :=
  if ((validTable dfF).rows.filter
      (fun r => getVal l "核價類別名稱_clean" ==
        getVal r "核價類別_clean")).isEmpty
  then [l ++ [("_merge", "left_only")]]
  else ((validTable dfF).rows.filter
    (fun r => getVal l "核價類別名稱_clean" ==
      getVal r "核價類別_clean")).map
    (fun r => l ++ r ++ [("_merge", "both")])

theorem stage2_rows_eq (dfF dfI dfP : DF) :
    (stage2 dfF dfI dfP).rows =
      (stage1 dfI dfP).rows.flatMap (stage2Branch dfF) := rfl

/-- One left-join output row: the `_merge` tag records exactly whether the
row's normalized category is in the valid set, and the original category
field is untouched. -/
theorem stage2_branch (dfF : DF) (l : Row)
    (hl : ∀ pr ∈ l, pr.1 ≠ "_merge") (u : Row)
    (hu0 : u ∈ stage2Branch dfF l) :
    getVal u "_merge" = (if getVal l "核價類別名稱_clean" ∈ validSet dfF
      then "both" else "left_only") ∧
    getVal u "核價類別名稱" = getVal l "核價類別名稱" := by
  have hu : u ∈ (if ((validTable dfF).rows.filter
        (fun r => getVal l "核價類別名稱_clean" ==
          getVal r "核價類別_clean")).isEmpty
      then [l ++ [("_merge", "left_only")]]
      else ((validTable dfF).rows.filter
        (fun r => getVal l "核價類別名稱_clean" ==
          getVal r "核價類別_clean")).map
        (fun r => l ++ r ++ [("_merge", "both")])) := hu0
  split_ifs at hu with he
  · have hnm : getVal l "核價類別名稱_clean" ∉ validSet dfF := by
      rw [← validTable_filter_ne_nil_iff]
      intro hne
      exact hne (by simpa [List.isEmpty_iff] using he)
    have hue : u = l ++ [("_merge", "left_only")] := by simpa using hu
    subst hue
    constructor
    · rw [getVal_append_left_keyfree _ _ _ hl, getVal_singleton,
        if_neg hnm]
    · rw [getVal_append_right_keyfree _ _ _ (by
        intro pr hpr
        have : pr = ("_merge", "left_only") := by simpa using hpr
        rw [this]
        decide)]
  · have hmem : getVal l "核價類別名稱_clean" ∈ validSet dfF := by
      rw [← validTable_filter_ne_nil_iff]
      simpa [List.isEmpty_iff] using he
    obtain ⟨vr, hvr, rfl⟩ := List.mem_map.mp hu
    have hvr2 := (List.mem_filter.mp hvr).1
    obtain ⟨v, rfl⟩ := validTable_rows_shape dfF _ hvr2
    constructor
    · rw [List.append_assoc, getVal_append_left_keyfree _ _ _ hl,
        getVal_append_left_keyfree _ _ _ (by
          intro pr hpr
          have : pr = ("核價類別_clean", v) := by simpa using hpr
          rw [this]
          exact (by decide : ("核價類別_clean" : String) ≠ "_merge")),
        getVal_singleton, if_pos hmem]
    · rw [List.append_assoc, getVal_append_right_keyfree _ _ _ (by
        intro pr hpr
        rcases List.mem_append.mp hpr with h1 | h1
        · have : pr = ("核價類別_clean", v) := by simpa using h1
          rw [this]
          exact (by decide : ("核價類別_clean" : String) ≠ "核價類別名稱")
        · have : pr = ("_merge", "both") := by simpa using h1
          rw [this]
          exact (by decide : ("_merge" : String) ≠ "核價類別名稱"))]

/-- The helper columns dropped before the output projection. -/
def helperColsList : List String := ["名稱_clean", "核價類別_clean", "_merge"]

/-- The cell written into the 點數變更記錄 column of one row. -/
def flagVal (u : Row) : String :=
  if getVal u "_merge" == "both" then "1" else "0"

/-- The composite row transformation applied after the stage-2 join: flag
assignment, helper-column drop, and projection onto `pcols`. -/
def finalRow (pcols : List String) (u : Row) : Row :=
  pcols.map (fun c => (c, getVal
    ((setVal u "點數變更記錄" (flagVal u)).filter
      (fun pr => !(helperColsList.contains pr.1))) c))

/-- The columns of the projected output table. -/
def presentCols (dfF dfI dfP : DF) : List String :=
  outputColumns.filter (fun c =>
    (dropHelperCols (withFlag (stage2 dfF dfI dfP))).cols.contains c)

theorem reconTable_rows_eq (dfF dfI dfP : DF) :
    (reconTable dfF dfI dfP).rows =
      (stage2 dfF dfI dfP).rows.map (finalRow (presentCols dfF dfI dfP)) := by
  unfold reconTable projectOutput selectCols dropHelperCols dropColumns
    withFlag addCol
  simp only [List.map_map]
  rfl

theorem recon_cols_flag (dfF dfI dfP : DF) :
    "點數變更記錄" ∈ (dropHelperCols (withFlag (stage2 dfF dfI dfP))).cols := by
  unfold dropHelperCols dropColumns
  simp only
  exact List.mem_filter.mpr ⟨mem_addCol_cols_self _ _ _, by decide⟩

theorem recon_cols_name (dfF dfI dfP : DF) (hp : "核價類別名稱" ∈ dfP.cols) :
    "核價類別名稱" ∈ (dropHelperCols (withFlag (stage2 dfF dfI dfP))).cols := by
  unfold dropHelperCols dropColumns
  simp only
  refine List.mem_filter.mpr ⟨?_, by decide⟩
  apply mem_addCol_cols
  unfold stage2 leftMergeInd
  simp only
  refine List.mem_append.mpr (Or.inl ?_)
  refine List.mem_append.mpr (Or.inl ?_)
  unfold stage1 innerMerge
  simp only
  refine List.mem_append.mpr (Or.inl ?_)
  exact mem_addCol_cols _ _ _ _ hp

theorem finalRow_getVal_flag (dfF dfI dfP : DF) (u : Row) :
    getVal (finalRow (presentCols dfF dfI dfP) u) "點數變更記錄" =
      flagVal u := by
  have hc1 : "點數變更記錄" ∈ presentCols dfF dfI dfP :=
    List.mem_filter.mpr ⟨by decide,
      List.elem_iff.mpr (recon_cols_flag dfF dfI dfP)⟩
  unfold finalRow
  rw [getVal_projRow, if_pos (List.elem_iff.mpr hc1)]
  rw [getVal_filter_keep _ _ _ (fun pr hpr => by
    rw [hpr]
    decide)]
  exact getVal_setVal_self _ _ _

theorem finalRow_getVal_name (dfF dfI dfP : DF)
    (hp : "核價類別名稱" ∈ dfP.cols) (u : Row) :
    getVal (finalRow (presentCols dfF dfI dfP) u) "核價類別名稱" =
      getVal u "核價類別名稱" := by
  have hc1 : "核價類別名稱" ∈ presentCols dfF dfI dfP :=
    List.mem_filter.mpr ⟨by decide,
      List.elem_iff.mpr (recon_cols_name dfF dfI dfP hp)⟩
  unfold finalRow
  rw [getVal_projRow, if_pos (List.elem_iff.mpr hc1)]
  rw [getVal_filter_keep _ _ _ (fun pr hpr => by
    rw [hpr]
    decide)]
  exact getVal_setVal_ne _ _ _ _ (by decide)

/-- C1: in the reconciled output table, every row's 點數變更記錄 flag is
"1" exactly when the stage-2 left-join indicator was "both", i.e. when the
row's normalized category name is a member of the deduplicated
valid-category set derived from the format table, and "0" otherwise;
consequently every flag is "1" or "0" and the flag sum equals the number
of stage-1-surviving rows with a valid normalized category name.  (The
hypothesis that the price rows carry no `_merge` key mirrors pandas, which
raises when `indicator=True` meets a pre-existing `_merge` column.) -/
theorem claim_C1_change_flag (dfF dfI dfP : DF) (out : String)
    (hmerge : ∀ r ∈ dfP.rows, ∀ pr ∈ r, pr.1 ≠ "_merge")
    (df : DF) (msg : String)
    (hrun : HistoryDataSearch (some dfF) (some dfI) (some dfP) out =
      (some df, msg)) :
    (∀ r ∈ df.rows,
      getVal r "點數變更記錄" =
        if cleanS (getVal r "核價類別名稱") ∈
            dfF.rows.map (fun fr => cleanS (getVal fr "核價類別"))
          then "1" else "0") ∧
    (∀ r ∈ df.rows,
      getVal r "點數變更記錄" = "1" ∨ getVal r "點數變更記錄" = "0") ∧
    flagSum df = (stage1 dfI dfP).rows.countP
      (fun l => decide (cleanS (getVal l "核價類別名稱") ∈
        dfF.rows.map (fun fr => cleanS (getVal fr "核價類別")))) := by
  have hval : firstMissing dfF dfI dfP = none := by
    cases e : firstMissing dfF dfI dfP with
    | none => rfl
    | some nm_ms =>
      unfold HistoryDataSearch historyBody at hrun
      simp [readCsv, e, wrapResult, Bind.bind, Except.bind] at hrun
  have hdf : df = reconTable dfF dfI dfP := by
    unfold HistoryDataSearch historyBody at hrun
    simp [readCsv, hval, wrapResult, Bind.bind, Except.bind] at hrun
    exact hrun.1.symm
  subst hdf
  have hpm : missingCols dfP requiredPriceCols = [] := by
    unfold firstMissing at hval
    split_ifs at hval with h1 h2 h3
    exact of_not_not h3
  have hp : "核價類別名稱" ∈ dfP.cols := by
    have h2 := List.filter_eq_nil_iff.mp hpm "核價類別名稱"
      (by simp [requiredPriceCols])
    simp only [Bool.not_eq_true', Bool.not_eq_false] at h2
    exact List.elem_iff.mp h2
  have hA : ∀ r ∈ (reconTable dfF dfI dfP).rows,
      getVal r "點數變更記錄" =
        if cleanS (getVal r "核價類別名稱") ∈
            dfF.rows.map (fun fr => cleanS (getVal fr "核價類別"))
          then "1" else "0" := by
    intro r hr
    rw [reconTable_rows_eq] at hr
    obtain ⟨u, hu2, rfl⟩ := List.mem_map.mp hr
    rw [stage2_rows_eq] at hu2
    obtain ⟨l, hl, hu⟩ := List.mem_flatMap.mp hu2
    obtain ⟨hclean, hnomerge⟩ := stage1_row_props dfI dfP hmerge l hl
    obtain ⟨hmergeVal, hname⟩ := stage2_branch dfF l hnomerge u hu
    rw [finalRow_getVal_flag, finalRow_getVal_name dfF dfI dfP hp, hname]
    unfold flagVal
    rw [hmergeVal]
    by_cases hv : getVal l "核價類別名稱_clean" ∈ validSet dfF
    · rw [if_pos hv]
      have hv2 : cleanS (getVal l "核價類別名稱") ∈
          dfF.rows.map (fun fr => cleanS (getVal fr "核價類別")) := by
        rw [← hclean]
        exact (validSet_mem dfF _).mp hv
      rw [if_pos hv2]
      rfl
    · rw [if_neg hv]
      have hv2 : cleanS (getVal l "核價類別名稱") ∉
          dfF.rows.map (fun fr => cleanS (getVal fr "核價類別")) := by
        rw [← hclean]
        exact fun hc => hv ((validSet_mem dfF _).mpr hc)
      rw [if_neg hv2]
      rfl
  refine ⟨hA, ?_, ?_⟩
  · intro r hr
    rw [hA r hr]
    split_ifs
    · exact Or.inl rfl
    · exact Or.inr rfl
  · unfold flagSum
    rw [reconTable_rows_eq, stage2_rows_eq, List.map_map, sum_flatMap_nat]
    have hper : ∀ l ∈ (stage1 dfI dfP).rows,
        ((stage2Branch dfF l).map
          ((fun r => if getVal r "點數變更記錄" == "1" then 1 else 0) ∘
            finalRow (presentCols dfF dfI dfP))).sum =
        (if (decide (cleanS (getVal l "核價類別名稱") ∈
            dfF.rows.map (fun fr => cleanS (getVal fr "核價類別")))) = true
          then 1 else 0) := by
      intro l hl
      obtain ⟨hclean, hnomerge⟩ := stage1_row_props dfI dfP hmerge l hl
      by_cases he : ((validTable dfF).rows.filter
          (fun r => getVal l "核價類別名稱_clean" ==
            getVal r "核價類別_clean")).isEmpty
      · have hbr : stage2Branch dfF l = [l ++ [("_merge", "left_only")]] := by
          unfold stage2Branch
          rw [if_pos he]
        have hm2 := (stage2_branch dfF l hnomerge (l ++ [("_merge", "left_only")])
          (by rw [hbr]; simp)).1
        have hnm : getVal l "核價類別名稱_clean" ∉ validSet dfF := by
          rw [← validTable_filter_ne_nil_iff]
          intro hne
          exact hne (by simpa [List.isEmpty_iff] using he)
        have hv2 : cleanS (getVal l "核價類別名稱") ∉
            dfF.rows.map (fun fr => cleanS (getVal fr "核價類別")) := by
          rw [← hclean]
          exact fun hc => hnm ((validSet_mem dfF _).mpr hc)
        rw [hbr]
        simp only [List.map_cons, List.map_nil, List.sum_cons, List.sum_nil,
          Function.comp]
        rw [finalRow_getVal_flag]
        unfold flagVal
        rw [hm2, if_neg hnm]
        simp [hv2]
      · have hne : ((validTable dfF).rows.filter
            (fun r => getVal l "核價類別名稱_clean" ==
              getVal r "核價類別_clean")) ≠ [] := by
          simpa [List.isEmpty_iff] using he
        obtain ⟨vr, hvr⟩ := length_le_one_ne_nil _
          (validTable_filter_len dfF _) hne
        have hbr : stage2Branch dfF l = [l ++ vr ++ [("_merge", "both")]] := by
          unfold stage2Branch
          rw [if_neg (by simpa [List.isEmpty_iff] using hne), hvr]
          rfl
        have hm2 := (stage2_branch dfF l hnomerge (l ++ vr ++ [("_merge", "both")])
          (by rw [hbr]; simp)).1
        have hmem : getVal l "核價類別名稱_clean" ∈ validSet dfF := by
          rw [← validTable_filter_ne_nil_iff]
          exact hne
        have hv2 : cleanS (getVal l "核價類別名稱") ∈
            dfF.rows.map (fun fr => cleanS (getVal fr "核價類別")) := by
          rw [← hclean]
          exact (validSet_mem dfF _).mp hmem
        rw [hbr]
        simp only [List.map_cons, List.map_nil, List.sum_cons, List.sum_nil,
          Function.comp]
        rw [finalRow_getVal_flag]
        unfold flagVal
        rw [hm2, if_pos hmem]
        simp [hv2]
    rw [List.map_congr_left hper]
    exact sum_ite_eq_countP _ _

theorem claim_C1_witness :
    flagSum (reconTable dfFormatEx dfIndexEx dfPriceEx) =
      (stage1 dfIndexEx dfPriceEx).rows.countP
        (fun l => decide (cleanS (getVal l "核價類別名稱") ∈
          dfFormatEx.rows.map (fun fr => cleanS (getVal fr "核價類別")))) :=
  (claim_C1_change_flag dfFormatEx dfIndexEx dfPriceEx "out.csv"
    (by decide) (reconTable dfFormatEx dfIndexEx dfPriceEx)
    (summaryMsg (reconTable dfFormatEx dfIndexEx dfPriceEx) "out.csv")
    (by decide)).2.2

/-! ## Normalizer claims -/

/-- C5: the normalizer is idempotent — `clean_str(clean_str(x)) ==
clean_str(x)` for every string, where the normalizer applies NFKC
compatibility normalization, trims the ends, collapses internal whitespace
runs to single spaces, and lower-cases. -/
theorem claim_C5_normalizer_idempotent (s : String) :
    clean_str (.pstr (clean_str (.pstr s))) = clean_str (.pstr s) := by
  show String.mk (normChars (normChars s.data)) = String.mk (normChars s.data)
  rw [normChars_idem]

/-- C8 counterexample: a plain numeric input is not normalized to the
empty string — `clean_str(5)` is the string "5". -/
theorem claim_C8_counterexample :
    clean_str (.pint 5) = "5" ∧ clean_str (.pint 5) ≠ "" :=
  ⟨by decide, by decide⟩

/-- C8 (amended): the normalizer never raises (it is total on all
modelled Python values); NaN-like non-string inputs (float NaN, None —
exactly the values `pd.isna` accepts) resolve to the empty string, while
any other non-string input is first converted with `str(...)` and then
normalized, so a plain number yields its numeral rather than the empty
string. -/
theorem claim_C8_nan_empty (v : PyVal) :
    (pyIsNa v = true → clean_str v = "") ∧
    (pyIsNa v = false → clean_str v = String.mk (normChars (pyStr v).data)) := by
  constructor
  · intro h
    unfold clean_str
    rw [if_pos h]
  · intro h
    unfold clean_str
    rw [if_neg (by simp [h])]

theorem claim_C8_witness :
    pyIsNa PyVal.pnan = true ∧ clean_str PyVal.pnan = "" :=
  ⟨by decide, (claim_C8_nan_empty PyVal.pnan).1 (by decide)⟩

end ChiMei
